import Mathlib

/-
Verification of the sequential block file core
(Source/Processors/RecordNode/BinaryFormat/SequentialBlockFile.cpp).

The C++ class keeps a sliding window of fixed-size in-memory blocks of
channel-interleaved samples.  We embed the state and the three operations
(constructor, openFile, writeChannel with its helper allocateBlocks) as
executable Lean functions, modelling:
  - uint64 arithmetic with explicit mod 2^64 (u64add / u64sub),
  - the int <-> unsigned int conversions of allocateBlocks with explicit
    mod 2^32 (toUInt32x / toInt32x): these conversions are load-bearing,
    because the channel cursors are initialized to the int sentinel -1,
    which the comparison against the unsigned minBlock turns into
    0xFFFFFFFF,
  - out-of-range block accesses (which in the source dereference the
    nullptr returned by the juce array operators) as Option.none,
  - the backing file as a reliable append-only sample sink (a list of
    samples), per the spec which treats file creation and raw appends as
    an external collaborator; a FileBlock's flush-on-destroy and
    partialFlush are modelled from the spec since the FileBlock class
    itself (SequentialBlockFile.h) is not part of the given sources.
Plain int values that never interact with a conversion in the source are
modelled as unbounded Int/Nat; the theorems carry explicit smallness
bounds wherever a machine-width overflow (undefined behaviour in the
source) would otherwise be reachable.
-/

/-- Reduction mod 2^64, the value space of a C++ uint64. -/
def mod64 (n : Nat) : Nat := n % 2 ^ 64

/-- uint64 addition. -/
def u64add (a b : Nat) : Nat := (a + b) % 2 ^ 64

/-- uint64 subtraction (wraps around like the source's unsigned arithmetic). -/
def u64sub (a b : Nat) : Nat := (a % 2 ^ 64 + (2 ^ 64 - b % 2 ^ 64)) % 2 ^ 64

/-- Conversion of a C++ int to uint64 (sign extension followed by mod 2^64). -/
def toUInt64x (x : Int) : Nat := (x % (2 ^ 64 : Int)).toNat

/-- Conversion of a C++ int to unsigned int: reduction mod 2^32.
This is the conversion applied to each channel cursor when allocateBlocks
compares it against the unsigned minBlock. -/
def toUInt32x (x : Int) : Nat := (x % (2 ^ 32 : Int)).toNat

/-- Reinterpretation of an unsigned 32-bit value as a signed int
(two's complement). -/
def toInt32x (n : Nat) : Int :=
  if n % 2 ^ 32 < 2 ^ 31 then ((n % 2 ^ 32 : Nat) : Int)
  else ((n % 2 ^ 32 : Nat) : Int) - 2 ^ 32

/-- juce jmin on int values, used for the per-block write count. -/
def jmin (a b : Int) : Int := if b < a then b else a

/-- The removal count actually applied by juce Array.removeRange(0, n):
the int argument is clamped to the interval from 0 to the array size. -/
def natClampInt (v : Int) (hi : Nat) : Nat := min v.toNat hi

/-- juce Array.set semantics for nonnegative indices: replace in range,
append when the index is at or past the end. -/
def juceArraySet (l : List Int) (idx : Nat) (v : Int) : List Int :=
  if idx < l.length then l.set idx v else l ++ [v]

/-- Modelled from the spec: a FileBlock (declared in SequentialBlockFile.h,
which is not among the given sources) is a fixed-capacity buffer of
interleaved samples tagged with its starting absolute sample offset. -/
structure FileBlock where
  offset : Nat
  data : List Int
  deriving DecidableEq, Repr

instance : Inhabited FileBlock := ⟨⟨0, []⟩⟩

/-- The SequentialBlockFile state: the backing stream (abstracted to a
flag plus the list of samples already flushed to it), the construction
parameters, the window of resident blocks, the per-channel cursors and
the fill high-water mark of the tail block. -/
structure SequentialBlockFile where
  m_file : Bool
  m_nChannels : Nat
  m_samplesPerBlock : Nat
  m_blockSize : Nat
  m_memBlocks : List FileBlock
  m_currentBlock : List Int
  m_lastBlockFill : Nat
  flushed : List Int
  deriving DecidableEq, Repr

instance : Inhabited SequentialBlockFile :=
  ⟨⟨false, 0, 0, 0, [], [], 0, []⟩⟩

namespace SequentialBlockFile

/-- The constructor SequentialBlockFile(nChannels, samplesPerBlock):
no stream, blockSize = nChannels * samplesPerBlock, every channel cursor
initialized to the sentinel -1. -/
def init (nChannels samplesPerBlock : Nat) : SequentialBlockFile :=
  { m_file := false
    m_nChannels := nChannels
    m_samplesPerBlock := samplesPerBlock
    m_blockSize := nChannels * samplesPerBlock
    m_memBlocks := []
    m_currentBlock := List.replicate nChannels (-1)
    m_lastBlockFill := 0
    flushed := [] }

/-- openFile: the file-creation dance is external; streamOk is the outcome
of file.createOutputStream.  On success the stream is installed and a
fresh zero block at offset 0 is appended to the window (the source does
not clear a previously populated window).  On failure m_file is the null
stream and the function returns false. -/
def openFile (s : SequentialBlockFile) (streamOk : Bool) :
    Bool × SequentialBlockFile :=
  if streamOk then
    (true, { s with m_file := true
                    m_memBlocks := s.m_memBlocks ++
                      [⟨0, List.replicate s.m_blockSize 0⟩] })
  else
    (false, { s with m_file := false })

/-- The unsigned minimum over the channel cursors computed by the first
loop of allocateBlocks: minBlock starts at 0xFFFFFFFF and each int cursor
is converted to unsigned by the comparison, so the sentinel -1 compares
as 0xFFFFFFFF and never lowers the minimum. -/
def minBlockOf (cursors : List Int) : Nat :=
  cursors.foldl (fun m c => if toUInt32x c < m then toUInt32x c else m) (2 ^ 32 - 1)

/-- The number of blocks allocateBlocks removes from the front of the
window: juce removeRange clamps the int reinterpretation of minBlock. -/
def evictCount (s : SequentialBlockFile) : Nat :=
  natClampInt (toInt32x (minBlockOf s.m_currentBlock)) s.m_memBlocks.length

/-- The block-appending loop of allocateBlocks: each step advances
lastOffset by samplesPerBlock (uint64 addition) and adds a fresh zero
block there. -/
def appendBlocks (blockSize spb : Nat) : Nat → Nat → List FileBlock
  | 0, _ => []
  | n + 1, lastOffset =>
      ⟨u64add lastOffset spb, List.replicate blockSize 0⟩ ::
        appendBlocks blockSize spb n (u64add lastOffset spb)

/-- allocateBlocks(startIndex, numSamples): evict the prefix of blocks
below the unsigned cursor minimum (rebasing every cursor by int-minus-
unsigned arithmetic), then append enough new blocks past the current last
offset; the space computation runs in uint64 and the block count is
narrowed to int.  Evicted blocks are flushed (fully, in order) to the
backing file by their destructors.  Returns none when the window is empty
after eviction: there the source dereferences the null getLast(). -/
def allocateBlocks (s : SequentialBlockFile) (startIndex : Nat)
    (numSamples : Int) : Option SequentialBlockFile :=
  let minBlock := minBlockOf s.m_currentBlock
  let cursors' := s.m_currentBlock.map
    (fun c => toInt32x ((toUInt32x c + (2 ^ 32 - minBlock)) % 2 ^ 32))
  let removed := s.evictCount
  let flushed' := s.flushed ++ (s.m_memBlocks.take removed).flatMap (fun b => b.data)
  let blocks' := s.m_memBlocks.drop removed
  match blocks'.getLast? with
  | none => none
  | some lastB =>
    let lastOffset := lastB.offset
    let maxAddr := u64sub (u64add lastOffset s.m_samplesPerBlock) 1
    let newSpaceNeeded := u64sub (toUInt64x numSamples) (u64sub maxAddr startIndex)
    let newBlocks := toInt32x
      (mod64 (u64sub (u64add newSpaceNeeded s.m_samplesPerBlock) 1 / s.m_samplesPerBlock))
    some { s with
      m_currentBlock := cursors'
      m_memBlocks := blocks' ++
        appendBlocks s.m_blockSize s.m_samplesPerBlock newBlocks.toNat lastOffset
      flushed := flushed'
      m_lastBlockFill := if 0 < newBlocks then 0 else s.m_lastBlockFill }

/-- The capacity check and conditional allocateBlocks call at the top of
writeChannel: allocate when the window is empty or the tail block ends
before startPos + nSamples (uint64 comparison). -/
def preWriteState (s : SequentialBlockFile) (startPos : Nat) (nSamples : Int) :
    Option SequentialBlockFile :=
  if ((s.m_memBlocks.length : Int) - 1 < 0) ∨
      u64add (s.m_memBlocks.getD (s.m_memBlocks.length - 1) default).offset
          s.m_samplesPerBlock <
        u64add (mod64 startPos) (toUInt64x nSamples) then
    s.allocateBlocks startPos nSamples
  else
    some s

end SequentialBlockFile

/-- The backward scan of writeChannel, one step per index from high to
low: scanGo blocks startPos (n+1) inspects index n. -/
def scanGo (blocks : List FileBlock) (startPos : Nat) : Nat → Int
  | 0 => -1
  | n + 1 =>
      if (blocks.getD n default).offset ≤ startPos then (n : Int)
      else scanGo blocks startPos n

/-- The backward scan from the newest block for the last block whose
offset is at most startPos; -1 when none exists. -/
def scanBack (blocks : List FileBlock) (startPos : Nat) : Int :=
  scanGo blocks startPos blocks.length

/-- One run of interleaved stores: starting at position pos, write the
values with stride nChannels (the inner for loop of writeChannel, whose
i-th store hits startMemPos + channel + i * nChannels). -/
def writeInterleaved : List Int → Nat → Nat → List Int → List Int
  | bl, _, _, [] => bl
  | bl, pos, stride, v :: vs => writeInterleaved (bl.set pos v) (pos + stride) stride vs

/-- The cnt input samples starting at dataIdx (the reads data[dataIdx++]
of the inner loop; a read past the caller's buffer is indeterminate in
the source and modelled as 0). -/
def readRun (data : List Int) (dataIdx cnt : Nat) : List Int :=
  (List.range cnt).map (fun i => data.getD (dataIdx + i) 0)

/-- The while loop of writeChannel.  Each iteration writes
jmin(nSamples - writtenSamples, samplesPerBlock - startIdx) samples into
the block at bIndex, updates the tail fill high-water mark, then moves to
the next block with startIdx = startMemPos = 0.  An access at an index
outside the window dereferences a null block pointer in the source and
yields none; the fuel passed by writeChannel always dominates the number
of iterations, because bIndex strictly increases every iteration. -/
def copyLoop (nChannels spb channel : Nat) (data : List Int) (nSamples : Int)
    (lastBlockIdx : Nat) :
    Nat → List FileBlock → Int → Nat → Nat → Nat → Nat → Nat →
    Option (List FileBlock × Nat × Nat)
  | 0, _, _, _, _, _, _, _ => none
  | fuel + 1, blocks, writtenSamples, startIdx, startMemPos, dataIdx, bIndex,
      lastBlockFill =>
    if writtenSamples < nSamples then
      if bIndex < blocks.length then
        let b := blocks.getD bIndex default
        let samplesToWrite := jmin (nSamples - writtenSamples)
          ((spb : Int) - (startIdx : Int))
        let cnt := samplesToWrite.toNat
        let bl' := writeInterleaved b.data (startMemPos + channel) nChannels
          (readRun data dataIdx cnt)
        let samplePos := toUInt64x ((startIdx : Int) + samplesToWrite)
        let lastBlockFill' :=
          if bIndex = lastBlockIdx ∧ lastBlockFill < samplePos then samplePos
          else lastBlockFill
        copyLoop nChannels spb channel data nSamples lastBlockIdx fuel
          (blocks.set bIndex { b with data := bl' })
          (writtenSamples + samplesToWrite) 0 0 (dataIdx + cnt) (bIndex + 1)
          lastBlockFill'
      else none
    else some (blocks, bIndex, lastBlockFill)

namespace SequentialBlockFile

/-- writeChannel(startPos, channel, data, nSamples): fail fast when the
stream is not open; ensure capacity (preWriteState); scan backward for
the owning block, failing when it was already evicted; copy the run block
by block; finally record bIndex - 1 as the channel's cursor.  none models
a crash (null block dereference) in the source. -/
def writeChannel (s : SequentialBlockFile) (startPos : Nat) (channel : Nat)
    (data : List Int) (nSamples : Int) : Option (Bool × SequentialBlockFile) :=
  if s.m_file = false then some (false, s)
  else
    (s.preWriteState startPos nSamples).bind (fun s1 =>
      let bIdx := scanBack s1.m_memBlocks startPos
      if bIdx < 0 then some (false, s1)
      else
        let bi := bIdx.toNat
        let startIdx := u64sub (mod64 startPos)
          (s1.m_memBlocks.getD bi default).offset
        let startMemPos := startIdx * s1.m_nChannels
        let lastBlockIdx := s1.m_memBlocks.length - 1
        (copyLoop s1.m_nChannels s1.m_samplesPerBlock channel data nSamples
            lastBlockIdx (s1.m_memBlocks.length + 2) s1.m_memBlocks 0 startIdx
            startMemPos 0 bi s1.m_lastBlockFill).map (fun t =>
          (true, { s1 with
            m_memBlocks := t.1
            m_lastBlockFill := t.2.2
            m_currentBlock := juceArraySet s1.m_currentBlock channel
              ((t.2.1 : Int) - 1) })))

end SequentialBlockFile

/-- The loop of the destructor: n applications of m_memBlocks.remove(0),
each of which deletes the block, and a FileBlock's destructor flushes its
whole buffer to the backing file (modelled from the spec: blocks are
destroyed by flush-to-file followed by release, in increasing offset
order). -/
def removeFlushLoop : Nat → List FileBlock → List Int → List FileBlock × List Int
  | 0, blocks, out => (blocks, out)
  | n + 1, blocks, out =>
    match blocks with
    | [] => ([], out)
    | b :: rest => removeFlushLoop n rest (out ++ b.data)

namespace SequentialBlockFile

/-- The destructor: remove (and thereby fully flush) all blocks but the
last, then partialFlush the remaining one up to
m_lastBlockFill * m_nChannels raw samples (partialFlush is modelled from
the spec: it writes only the first sampleCount interleaved samples).
Returns the final content of the backing file, or none when the window is
empty: there m_memBlocks[0] is a null pointer in the source. -/
def destructorFlush (s : SequentialBlockFile) : Option (List Int) :=
  let n := s.m_memBlocks.length
  let lp := removeFlushLoop (n - 1) s.m_memBlocks s.flushed
  match lp.1.head? with
  | none => none
  | some lastB =>
    some (lp.2 ++ lastB.data.take (s.m_lastBlockFill * s.m_nChannels))

/-- Convenience runner for building example states: the state after a
writeChannel call, keeping the old state when the call fails or crashes. -/
def runWrite (s : SequentialBlockFile) (startPos : Nat) (channel : Nat)
    (data : List Int) (nSamples : Int) : SequentialBlockFile :=
  ((s.writeChannel startPos channel data nSamples).getD (false, s)).2

end SequentialBlockFile

/-- States reachable through the public interface under its documented
contract: construction with at least one channel and one sample per
block, openFile only while no file is open, and writeChannel calls with a
valid channel and a nonnegative sample count that do not crash.  A direct
allocateBlocks step on a nonempty window is included as well, since the
helper is exercised by the spec's operation sequences. -/
inductive Reachable : SequentialBlockFile → Prop
  | init (nChannels spb : Nat) (h1 : 1 ≤ nChannels) (h2 : 1 ≤ spb) :
      Reachable (SequentialBlockFile.init nChannels spb)
  | openStep (s : SequentialBlockFile) (streamOk : Bool) (hr : Reachable s)
      (hclosed : s.m_file = false) :
      Reachable (s.openFile streamOk).2
  | writeStep (s s' : SequentialBlockFile) (startPos channel : Nat)
      (data : List Int) (nSamples : Int) (r : Bool) (hr : Reachable s)
      (hch : channel < s.m_nChannels) (hN : 0 ≤ nSamples)
      (hw : s.writeChannel startPos channel data nSamples = some (r, s')) :
      Reachable s'
  | allocStep (s s' : SequentialBlockFile) (startIndex : Nat) (numSamples : Int)
      (hr : Reachable s) (hne : s.m_memBlocks ≠ [])
      (ha : s.allocateBlocks startIndex numSamples = some s') :
      Reachable s'

/-
Concrete example states used by the scenario theorem, the refuting
computations and the witnesses.  exA uses 2 channels and 4 samples per
block; exB uses 1 channel and 4 samples per block.
-/

/-- The windows of a state have contiguous offsets: block i sits exactly
i blocks after block 0. -/
def Contig (s : SequentialBlockFile) : Prop :=
  ∀ i < s.m_memBlocks.length,
    (s.m_memBlocks.getD i default).offset =
      (s.m_memBlocks.getD 0 default).offset + i * s.m_samplesPerBlock

/-- Every resident block's buffer has exactly blockSize samples. -/
def DataSized (s : SequentialBlockFile) : Prop :=
  ∀ b ∈ s.m_memBlocks, b.data.length = s.m_blockSize

/-- The well-formedness bundle the write-path theorems assume of the
pre-call state.  All of it holds in any feasible execution: the
construction parameters are positive, the window is the contiguous
nonempty one the operations maintain, and the cursors and offsets are
small enough that the int / uint64 arithmetic of the source does not
overflow (overflowing it is undefined behaviour in C++). -/
structure Sane (s : SequentialBlockFile) : Prop where
  hC : 1 ≤ s.m_nChannels
  hP : 1 ≤ s.m_samplesPerBlock
  hbs : s.m_blockSize = s.m_nChannels * s.m_samplesPerBlock
  hne : s.m_memBlocks ≠ []
  hcontig : Contig s
  hdlen : DataSized s
  hbound : (s.m_memBlocks.getD 0 default).offset +
      s.m_memBlocks.length * s.m_samplesPerBlock < 2 ^ 30
  hcur : ∀ c ∈ s.m_currentBlock,
      -(2 ^ 31 : Int) ≤ c ∧ c < (s.m_memBlocks.length : Int)

/-- The state the write path sees after the capacity check: the file is
open, parameters are unchanged, the window is a nonempty contiguous run
of full-size blocks whose offsets stay below 2^31, and the window covers
the target position (coverage is what the check in writeChannel, plus
allocateBlocks when it fires, establishes). -/
def Ready (s1 : SequentialBlockFile) (C P bs target : Nat) : Prop :=
  s1.m_file = true ∧ s1.m_nChannels = C ∧ s1.m_samplesPerBlock = P ∧
  s1.m_blockSize = bs ∧ s1.m_memBlocks ≠ [] ∧
  (∀ i < s1.m_memBlocks.length, (s1.m_memBlocks.getD i default).offset =
    (s1.m_memBlocks.getD 0 default).offset + i * P) ∧
  (∀ b ∈ s1.m_memBlocks, b.data.length = bs) ∧
  (s1.m_memBlocks.getD 0 default).offset + s1.m_memBlocks.length * P < 2 ^ 31 ∧
  target ≤ (s1.m_memBlocks.getD 0 default).offset + s1.m_memBlocks.length * P

/-- The structural window invariant maintained by every reachable state:
the window is nonempty exactly while a file is open, offsets are uint64
values, and consecutive resident blocks differ by samplesPerBlock in the
uint64 arithmetic of the source. -/
def WindowInv (s : SequentialBlockFile) : Prop :=
  (s.m_file = true → s.m_memBlocks ≠ []) ∧
  (s.m_file = false → s.m_memBlocks = []) ∧
  (∀ i < s.m_memBlocks.length, (s.m_memBlocks.getD i default).offset < 2 ^ 64) ∧
  (∀ i, i + 1 < s.m_memBlocks.length →
    (s.m_memBlocks.getD (i + 1) default).offset =
      u64add (s.m_memBlocks.getD i default).offset s.m_samplesPerBlock)

open SequentialBlockFile in
/-- Two-channel window right after a successful open. -/
def exA0 : SequentialBlockFile := ((SequentialBlockFile.init 2 4).openFile true).2

/-- exA0 after channel 0 wrote samples 0..3. -/
def exA1 : SequentialBlockFile := exA0.runWrite 0 0 [1, 2, 3, 4] 4

/-- exA1 after channel 1 wrote samples 0..3. -/
def exA2 : SequentialBlockFile := exA1.runWrite 0 1 [9, 8, 7, 6] 4

/-- exA2 after channel 0 wrote sample 4 (forcing allocation of block 1). -/
def exA3 : SequentialBlockFile := exA2.runWrite 4 0 [5] 1

/-- exA2 after a direct allocateBlocks(4, 1) call (appends one block). -/
def exA2alloc : SequentialBlockFile := (exA2.allocateBlocks 4 1).getD exA2

/-- exA1 after channel 0 wrote samples 4..7 while channel 1 never wrote. -/
def exA1b : SequentialBlockFile := exA1.runWrite 4 0 [11, 12, 13, 14] 4

/-- exA1b after channel 0 wrote sample 12: this call evicts block 0
although channel 1 has never written. -/
def exA1c : SequentialBlockFile := exA1b.runWrite 12 0 [5] 1

/-- One-channel window right after a successful open. -/
def exB0 : SequentialBlockFile := ((SequentialBlockFile.init 1 4).openFile true).2

/-- exB0 after writing samples 0..3. -/
def exB1 : SequentialBlockFile := exB0.runWrite 0 0 [1, 2, 3, 4] 4

/-- exB1 after a direct allocateBlocks(4, 5) call (appends two blocks). -/
def exB1alloc : SequentialBlockFile := (exB1.allocateBlocks 4 5).getD exB1

/-- exB1 after writing samples 4..7 (allocates past block 0). -/
def exB2 : SequentialBlockFile := exB1.runWrite 4 0 [5, 6, 7, 8] 4

/-- exB2 after writing sample 12; block 0 has been evicted, so the
window starts at offset 4. -/
def exB3 : SequentialBlockFile := exB2.runWrite 12 0 [9] 1

/-- C4.  The scenario of the spec, computed step by step on the model:
the two full writes interleave block 0 as [1,9,2,8,3,7,4,6]; the write of
sample 4 on channel 0 allocates block 1 at offset 4 while channel 1's
cursor stays 0; a further write on channel 1 at startPos 0 still succeeds
because block 0 is still resident (the cursor minimum is 0). -/
theorem writeChannel_concrete_scenario :
    ((SequentialBlockFile.init 2 4).openFile true).1 = true ∧
    exA0.writeChannel 0 0 [1, 2, 3, 4] 4 = some (true, exA1) ∧
    exA1.writeChannel 0 1 [9, 8, 7, 6] 4 = some (true, exA2) ∧
    (exA2.m_memBlocks.getD 0 default).data = [1, 9, 2, 8, 3, 7, 4, 6] ∧
    exA2.writeChannel 4 0 [5] 1 = some (true, exA3) ∧
    exA3.m_memBlocks.length = 2 ∧
    (exA3.m_memBlocks.getD 1 default).offset = 4 ∧
    exA3.m_currentBlock.getD 1 0 = 0 ∧
    SequentialBlockFile.minBlockOf exA3.m_currentBlock = 0 ∧
    (exA3.m_memBlocks.getD 0 default).offset = 0 ∧
    (exA3.writeChannel 0 1 [9, 8, 7, 6] 4).map Prod.fst = some true := by
  decide

/-- The example states are reachable through the public interface. -/
theorem reachable_exA0 : Reachable exA0 :=
  Reachable.openStep (SequentialBlockFile.init 2 4) true
    (Reachable.init 2 4 (by norm_num) (by norm_num)) rfl

theorem reachable_exA1 : Reachable exA1 :=
  Reachable.writeStep exA0 exA1 0 0 [1, 2, 3, 4] 4 true reachable_exA0
    (by decide) (by decide) (by decide)

theorem reachable_exA2 : Reachable exA2 :=
  Reachable.writeStep exA1 exA2 0 1 [9, 8, 7, 6] 4 true reachable_exA1
    (by decide) (by decide) (by decide)

theorem reachable_exA3 : Reachable exA3 :=
  Reachable.writeStep exA2 exA3 4 0 [5] 1 true reachable_exA2
    (by decide) (by decide) (by decide)

theorem reachable_exA1b : Reachable exA1b :=
  Reachable.writeStep exA1 exA1b 4 0 [11, 12, 13, 14] 4 true reachable_exA1
    (by decide) (by decide) (by decide)

theorem reachable_exB0 : Reachable exB0 :=
  Reachable.openStep (SequentialBlockFile.init 1 4) true
    (Reachable.init 1 4 (by norm_num) (by norm_num)) rfl

theorem reachable_exB1 : Reachable exB1 :=
  Reachable.writeStep exB0 exB1 0 0 [1, 2, 3, 4] 4 true reachable_exB0
    (by decide) (by decide) (by decide)

theorem reachable_exB2 : Reachable exB2 :=
  Reachable.writeStep exB1 exB2 4 0 [5, 6, 7, 8] 4 true reachable_exB1
    (by decide) (by decide) (by decide)

theorem reachable_exB3 : Reachable exB3 :=
  Reachable.writeStep exB2 exB3 12 0 [9] 1 true reachable_exB2
    (by decide) (by decide) (by decide)

/-- C1, refuting computation.  In state exA1b channel 1 has never written
(its cursor is the sentinel -1, so the signed cursor minimum is -1 and in
particular is at most 0) and block 0 (offset 0) is resident; yet the next
writeChannel call evicts block 0: afterwards every resident block has a
positive offset and block 0's contents sit in the backing file.  The
sentinel is excluded from the eviction minimum by the int-to-unsigned
conversion, contradicting the claimed lower bound at 0. -/
theorem block_zero_evicted_while_channel_unwritten :
    Reachable exA1b ∧
    exA1b.m_currentBlock = [1, -1] ∧
    (exA1b.m_memBlocks.getD 0 default).offset = 0 ∧
    exA1b.writeChannel 12 0 [5] 1 = some (true, exA1c) ∧
    (∀ b ∈ exA1c.m_memBlocks, 0 < b.offset) ∧
    exA1c.flushed = [1, 0, 2, 0, 3, 0, 4, 0] :=
  ⟨reachable_exA1b, by decide⟩

/-- C2, refuting computation.  exB3 is open and its first resident block
sits at offset 4, so a write at startPos 0 is stale; with nSamples = 20
the capacity check still runs allocateBlocks first, which evicts two
blocks, appends two new ones and clears the fill mark, before the
backward scan fails: the call returns false yet the state has changed,
so the stale write is not a no-op. -/
theorem writeChannel_stale_with_alloc_mutates_state :
    Reachable exB3 ∧
    exB3.m_file = true ∧
    (exB3.m_memBlocks.getD 0 default).offset = 4 ∧
    exB3.m_memBlocks.map FileBlock.offset = [4, 8, 12] ∧
    exB3.m_currentBlock = [2] ∧
    exB3.m_lastBlockFill = 1 ∧
    (exB3.writeChannel 0 0 (List.replicate 20 7) 20).map Prod.fst = some false ∧
    (exB3.writeChannel 0 0 (List.replicate 20 7) 20).map
        (fun p => p.2.m_memBlocks.map FileBlock.offset) = some [12, 16, 20] ∧
    (exB3.writeChannel 0 0 (List.replicate 20 7) 20).map
        (fun p => p.2.m_currentBlock) = some [0] ∧
    (exB3.writeChannel 0 0 (List.replicate 20 7) 20).map
        (fun p => p.2.m_lastBlockFill) = some 0 :=
  ⟨reachable_exB3, by decide⟩

/-- C5, refuting computation.  In state exB1 the single resident block
covers offsets 0..3 and the cursor is 0.  allocateBlocks(4, 4) has
shortfall startPos + nSamples - (lastOffset + samplesPerBlock) = 4, so
the claimed count ceil(4 / 4) = 1 predicts 2 resident blocks; the code
computes newSpaceNeeded = 5 through the inclusive maxAddr and appends 2
blocks, leaving 3 resident blocks. -/
theorem allocateBlocks_overallocates_on_exact_multiple :
    Reachable exB1 ∧
    exB1.m_memBlocks.map FileBlock.offset = [0] ∧
    exB1.m_samplesPerBlock = 4 ∧
    (exB1.allocateBlocks 4 4).map (fun t => t.m_memBlocks.map FileBlock.offset) =
      some [0, 4, 8] ∧
    (4 + 4 - (0 + 4) + 4 - 1) / 4 = 1 :=
  ⟨reachable_exB1, by decide⟩

/-- C7, refuting computation.  Calling openFile twice appends a second
block at offset 0 without clearing the window, so consecutive offsets are
[0, 0] and the contiguity equation fails at i = 0. -/
theorem double_open_breaks_offset_contiguity :
    (((SequentialBlockFile.init 2 4).openFile true).2.openFile true).2.m_memBlocks.map
        FileBlock.offset = [0, 0] ∧
    u64add ((((SequentialBlockFile.init 2 4).openFile true).2.openFile
        true).2.m_memBlocks.getD 0 default).offset
        (((SequentialBlockFile.init 2 4).openFile true).2.openFile
        true).2.m_samplesPerBlock = 4 := by
  decide

/-
Auxiliary list and machine-arithmetic lemmas.
-/

theorem getD_set_self {α : Type} (l : List α) (n : Nat) (v d : α)
    (h : n < l.length) : (l.set n v).getD n d = v := by
  induction l generalizing n with
  | nil => simp at h
  | cons a t ih =>
    cases n with
    | zero => simp
    | succ m =>
      simp only [List.set_cons_succ, List.getD_cons_succ]
      exact ih m (by simpa using h)

theorem getD_set_ne {α : Type} (l : List α) (m n : Nat) (v d : α)
    (h : m ≠ n) : (l.set m v).getD n d = l.getD n d := by
  induction l generalizing m n with
  | nil => simp [List.set]
  | cons a t ih =>
    cases m with
    | zero =>
      cases n with
      | zero => exact absurd rfl h
      | succ n' => simp
    | succ m' =>
      cases n with
      | zero => simp
      | succ n' =>
        simp only [List.set_cons_succ, List.getD_cons_succ]
        exact ih m' n' (by omega)

theorem getD_append_lt {α : Type} (l₁ l₂ : List α) (n : Nat) (d : α)
    (h : n < l₁.length) : (l₁ ++ l₂).getD n d = l₁.getD n d := by
  induction l₁ generalizing n with
  | nil => simp at h
  | cons a t ih =>
    cases n with
    | zero => simp
    | succ m =>
      simp only [List.cons_append, List.getD_cons_succ]
      exact ih m (by simpa using h)

theorem getD_append_ge {α : Type} (l₁ l₂ : List α) (n : Nat) (d : α)
    (h : l₁.length ≤ n) : (l₁ ++ l₂).getD n d = l₂.getD (n - l₁.length) d := by
  induction l₁ generalizing n with
  | nil => simp
  | cons a t ih =>
    cases n with
    | zero => simp at h
    | succ m =>
      simp only [List.cons_append, List.getD_cons_succ, List.length_cons]
      rw [ih m (by simpa using h)]
      congr 1
      omega

theorem getD_drop {α : Type} (l : List α) (R n : Nat) (d : α) :
    (l.drop R).getD n d = l.getD (R + n) d := by
  induction l generalizing R with
  | nil => simp
  | cons a t ih =>
    cases R with
    | zero => simp
    | succ m =>
      simp only [List.drop_succ_cons]
      rw [ih m]
      simp [Nat.succ_add]

theorem writeInterleaved_length (vs : List Int) :
    ∀ bl pos st, (writeInterleaved bl pos st vs).length = bl.length := by
  induction vs with
  | nil => intro bl pos st; rfl
  | cons v vt ih =>
    intro bl pos st
    simp only [writeInterleaved]
    rw [ih]
    simp

theorem writeInterleaved_getD_lt (vs : List Int) :
    ∀ bl pos st q d, q < pos →
      (writeInterleaved bl pos st vs).getD q d = bl.getD q d := by
  induction vs with
  | nil => intro bl pos st q d _; rfl
  | cons v vt ih =>
    intro bl pos st q d hq
    simp only [writeInterleaved]
    rw [ih _ _ _ _ _ (by omega)]
    exact getD_set_ne _ _ _ _ _ (by omega)

theorem writeInterleaved_getD_hit (st : Nat) (hst : 1 ≤ st) (vs : List Int) :
    ∀ bl pos i d, i < vs.length → pos + i * st < bl.length →
      (writeInterleaved bl pos st vs).getD (pos + i * st) d = vs.getD i d := by
  induction vs with
  | nil => intro bl pos i d hi _; simp at hi
  | cons v vt ih =>
    intro bl pos i d hi hb
    cases i with
    | zero =>
      simp only [Nat.zero_mul, Nat.add_zero] at hb ⊢
      simp only [writeInterleaved]
      rw [writeInterleaved_getD_lt vt (bl.set pos v) (pos + st) st pos d (by omega),
        getD_set_self bl pos v d hb]
      rfl
    | succ m =>
      simp only [writeInterleaved, List.getD_cons_succ]
      have harg : pos + (m + 1) * st = (pos + st) + m * st := by ring
      rw [harg]
      exact ih (bl.set pos v) (pos + st) m d (by simpa using hi)
        (by rw [List.length_set]; omega)

theorem readRun_length (data : List Int) (d0 cnt : Nat) :
    (readRun data d0 cnt).length = cnt := by
  simp [readRun]

theorem readRun_getD (data : List Int) (d0 cnt i : Nat) (h : i < cnt) :
    (readRun data d0 cnt).getD i 0 = data.getD (d0 + i) 0 := by
  simp [readRun, List.getD_eq_getElem?_getD, List.getElem?_map,
    List.getElem?_range h]

theorem mod64_eq_of_lt {n : Nat} (h : n < 2 ^ 64) : mod64 n = n :=
  Nat.mod_eq_of_lt h

theorem u64add_eq {a b : Nat} (h : a + b < 2 ^ 64) : u64add a b = a + b :=
  Nat.mod_eq_of_lt h

theorem u64sub_eq_of_le {a b : Nat} (hba : b ≤ a) (ha : a < 2 ^ 64) :
    u64sub a b = a - b := by
  unfold u64sub
  rw [Nat.mod_eq_of_lt ha, Nat.mod_eq_of_lt (lt_of_le_of_lt hba ha)]
  have h1 : a + (2 ^ 64 - b) = (a - b) + 2 ^ 64 := by omega
  rw [h1, Nat.add_mod_right]
  exact Nat.mod_eq_of_lt (by omega)

theorem u64sub_eq_of_lt {a b : Nat} (hab : a < b) (hb : b < 2 ^ 64) :
    u64sub a b = a + 2 ^ 64 - b := by
  unfold u64sub
  rw [Nat.mod_eq_of_lt (lt_trans hab hb), Nat.mod_eq_of_lt hb]
  have h1 : a + (2 ^ 64 - b) = a + 2 ^ 64 - b := by omega
  rw [h1]
  exact Nat.mod_eq_of_lt (by omega)

theorem toUInt64x_of_nonneg {x : Int} (h0 : 0 ≤ x) (h : x < 2 ^ 64) :
    toUInt64x x = x.toNat := by
  unfold toUInt64x
  rw [Int.emod_eq_of_lt h0 (by exact_mod_cast h)]

theorem toUInt32x_of_nonneg {x : Int} (h0 : 0 ≤ x) (h : x < 2 ^ 32) :
    toUInt32x x = x.toNat := by
  unfold toUInt32x
  rw [Int.emod_eq_of_lt h0 (by exact_mod_cast h)]

theorem toUInt32x_neg_ge {x : Int} (hl : -(2 ^ 31) ≤ x) (hx : x < 0) :
    2 ^ 31 ≤ toUInt32x x := by
  unfold toUInt32x
  have h1 : x % 2 ^ 32 = x + 2 ^ 32 := by
    have h2 : (x + 2 ^ 32) % 2 ^ 32 = x % 2 ^ 32 := by
      simp [Int.add_mul_emod_self_left]
    rw [← h2, Int.emod_eq_of_lt (by omega) (by omega)]
  rw [h1]
  omega

theorem toInt32x_small {n : Nat} (h : n < 2 ^ 31) : toInt32x n = (n : Int) := by
  unfold toInt32x
  rw [Nat.mod_eq_of_lt (by omega), if_pos h]

theorem toInt32x_high_toNat {n : Nat} (h1 : 2 ^ 31 ≤ n) (h2 : n < 2 ^ 32) :
    (toInt32x n).toNat = 0 := by
  unfold toInt32x
  rw [Nat.mod_eq_of_lt h2]
  have : ¬ n < 2 ^ 31 := by omega
  simp only [this, if_false]
  have hneg : ((n : Int) - 2 ^ 32) < 0 := by
    have : (n : Int) < 2 ^ 32 := by exact_mod_cast h2
    omega
  omega

theorem foldlMin_le_init (l : List Int) (init : Nat) :
    l.foldl (fun m c => if toUInt32x c < m then toUInt32x c else m) init ≤ init := by
  induction l generalizing init with
  | nil => simp
  | cons a t ih =>
    simp only [List.foldl_cons]
    refine le_trans (ih _) ?_
    by_cases h : toUInt32x a < init <;> simp [h]
    omega

theorem foldlMin_le_mem (l : List Int) (c : Int) (hc : c ∈ l) :
    ∀ init, l.foldl (fun m c => if toUInt32x c < m then toUInt32x c else m) init ≤
      toUInt32x c := by
  induction l with
  | nil => simp at hc
  | cons a t ih =>
    intro init
    rcases List.mem_cons.mp hc with h | h
    · subst h
      simp only [List.foldl_cons]
      refine le_trans (foldlMin_le_init _ _) ?_
      by_cases h : toUInt32x c < init <;> simp [h]
      omega
    · simp only [List.foldl_cons]
      exact ih h _

theorem foldlMin_ge (l : List Int) (lb : Nat)
    (h : ∀ c ∈ l, lb ≤ toUInt32x c) :
    ∀ init, lb ≤ init →
      lb ≤ l.foldl (fun m c => if toUInt32x c < m then toUInt32x c else m) init := by
  induction l with
  | nil => intro init h0; simpa using h0
  | cons a t ih =>
    intro init h0
    simp only [List.foldl_cons]
    refine ih (fun c hc => h c (List.mem_cons_of_mem _ hc)) _ ?_
    have := h a (List.mem_cons_self _ _)
    by_cases hlt : toUInt32x a < init <;> simp [hlt]
    · exact this
    · exact h0

theorem minBlockOf_le_mem (l : List Int) (c : Int) (hc : c ∈ l) :
    SequentialBlockFile.minBlockOf l ≤ toUInt32x c :=
  foldlMin_le_mem l c hc _

theorem minBlockOf_le_init (l : List Int) :
    SequentialBlockFile.minBlockOf l ≤ 2 ^ 32 - 1 :=
  foldlMin_le_init l _

theorem minBlockOf_ge (l : List Int) (lb : Nat) (hlb : lb ≤ 2 ^ 32 - 1)
    (h : ∀ c ∈ l, lb ≤ toUInt32x c) :
    lb ≤ SequentialBlockFile.minBlockOf l :=
  foldlMin_ge l lb h _ hlb

/-
The destructor: trimming of the final block (C6).
-/

theorem removeFlushLoop_eq (m : Nat) :
    ∀ (blocks : List FileBlock) (out : List Int),
      removeFlushLoop m blocks out =
        (blocks.drop m, out ++ (blocks.take m).flatMap (fun b => b.data)) := by
  induction m with
  | zero => intro blocks out; simp [removeFlushLoop]
  | succ n ih =>
    intro blocks out
    cases blocks with
    | nil => simp [removeFlushLoop]
    | cons b rest =>
      simp only [removeFlushLoop, ih, List.drop_succ_cons, List.take_succ_cons,
        List.flatMap_cons]
      simp

/-- C6.  Shutdown trimming: when the recorded fill high-water mark of the
tail block is k (the claim's hypothesis that exactly k sample-rows were
written into it) and the window is nonempty, the teardown output is the
previously flushed data, followed by every earlier retained block in full
and in order, followed by exactly k * nChannels raw samples of the final
block (not samplesPerBlock * nChannels). -/
theorem destructorFlush_trims_final_block (s : SequentialBlockFile) (k : Nat)
    (hk : s.m_lastBlockFill = k) (hklt : k < s.m_samplesPerBlock)
    (hne : s.m_memBlocks ≠ [])
    (hlast : (s.m_memBlocks.getD (s.m_memBlocks.length - 1) default).data.length =
      s.m_nChannels * s.m_samplesPerBlock) :
    s.destructorFlush = some (s.flushed ++
        ((s.m_memBlocks.take (s.m_memBlocks.length - 1)).flatMap (fun b => b.data) ++
        (s.m_memBlocks.getD (s.m_memBlocks.length - 1) default).data.take
          (k * s.m_nChannels))) ∧
    ((s.m_memBlocks.getD (s.m_memBlocks.length - 1) default).data.take
        (k * s.m_nChannels)).length = k * s.m_nChannels := by
  have hlen : 0 < s.m_memBlocks.length := List.length_pos.mpr hne
  constructor
  · simp only [SequentialBlockFile.destructorFlush, removeFlushLoop_eq]
    rw [List.head?_drop]
    rw [List.getElem?_eq_getElem (by omega)]
    simp only [Option.some.injEq]
    rw [hk, List.getD_eq_getElem?_getD, List.getElem?_eq_getElem (by omega)]
    simp [List.append_assoc]
  · rw [List.length_take, hlast]
    have : k * s.m_nChannels ≤ s.m_nChannels * s.m_samplesPerBlock := by
      calc k * s.m_nChannels ≤ s.m_samplesPerBlock * s.m_nChannels :=
            Nat.mul_le_mul_right _ (le_of_lt hklt)
        _ = s.m_nChannels * s.m_samplesPerBlock := Nat.mul_comm _ _
    omega

theorem destructorFlush_trims_final_block_witness :
    exA3.destructorFlush = some (exA3.flushed ++
        ((exA3.m_memBlocks.take (exA3.m_memBlocks.length - 1)).flatMap (fun b => b.data) ++
        (exA3.m_memBlocks.getD (exA3.m_memBlocks.length - 1) default).data.take
          (1 * exA3.m_nChannels))) ∧
    ((exA3.m_memBlocks.getD (exA3.m_memBlocks.length - 1) default).data.take
        (1 * exA3.m_nChannels)).length = 1 * exA3.m_nChannels :=
  destructorFlush_trims_final_block exA3 1 (by decide) (by decide) (by decide)
    (by decide)

/-
Structure of allocateBlocks and loop-preservation lemmas.
-/

theorem appendBlocks_length (bs spb : Nat) :
    ∀ n o, (SequentialBlockFile.appendBlocks bs spb n o).length = n := by
  intro n
  induction n with
  | zero => intro o; rfl
  | succ m ih =>
    intro o
    simp only [SequentialBlockFile.appendBlocks, List.length_cons, ih]

theorem appendBlocks_getD_offset_mod (bs spb : Nat) :
    ∀ n o i, i < n →
      ((SequentialBlockFile.appendBlocks bs spb n o).getD i default).offset =
        (o + (i + 1) * spb) % 2 ^ 64 := by
  intro n
  induction n with
  | zero => intro o i hi; omega
  | succ m ih =>
    intro o i hi
    cases i with
    | zero =>
      simp only [SequentialBlockFile.appendBlocks, List.getD_cons_zero, u64add]
      norm_num
    | succ j =>
      simp only [SequentialBlockFile.appendBlocks, List.getD_cons_succ]
      rw [ih (u64add o spb) j (by omega)]
      unfold u64add
      rw [Nat.mod_add_mod]
      congr 1
      ring

theorem appendBlocks_data_mem (bs spb : Nat) :
    ∀ n o b, b ∈ SequentialBlockFile.appendBlocks bs spb n o →
      b.data = List.replicate bs 0 := by
  intro n
  induction n with
  | zero => intro o b hb; simp [SequentialBlockFile.appendBlocks] at hb
  | succ m ih =>
    intro o b hb
    rcases List.mem_cons.mp hb with h | h
    · rw [h]
    · exact ih _ b h

theorem appendBlocks_chain (bs spb : Nat) (n o i : Nat) (h : i + 1 < n) :
    ((SequentialBlockFile.appendBlocks bs spb n o).getD (i + 1) default).offset =
      u64add ((SequentialBlockFile.appendBlocks bs spb n o).getD i default).offset
        spb := by
  rw [appendBlocks_getD_offset_mod bs spb n o (i + 1) h,
    appendBlocks_getD_offset_mod bs spb n o i (by omega)]
  unfold u64add
  rw [Nat.mod_add_mod]
  congr 1
  ring

theorem getLast?_eq_getD {α : Type} [Inhabited α] (l : List α) (h : l ≠ []) :
    l.getLast? = some (l.getD (l.length - 1) default) := by
  have hlen : 0 < l.length := List.length_pos.mpr h
  rw [List.getLast?_eq_getElem?, List.getElem?_eq_getElem (by omega)]
  rw [List.getD_eq_getElem?_getD, List.getElem?_eq_getElem (by omega)]
  rfl

theorem allocateBlocks_cases (s : SequentialBlockFile) (a : Nat) (n : Int)
    (s₁ : SequentialBlockFile) (h : s.allocateBlocks a n = some s₁) :
    ∃ lastB nb,
      (s.m_memBlocks.drop s.evictCount).getLast? = some lastB ∧
      nb = (toInt32x (mod64 (u64sub (u64add (u64sub (toUInt64x n)
          (u64sub (u64sub (u64add lastB.offset s.m_samplesPerBlock) 1) a))
          s.m_samplesPerBlock) 1 / s.m_samplesPerBlock))).toNat ∧
      s₁.m_file = s.m_file ∧
      s₁.m_nChannels = s.m_nChannels ∧
      s₁.m_samplesPerBlock = s.m_samplesPerBlock ∧
      s₁.m_blockSize = s.m_blockSize ∧
      s₁.m_memBlocks = s.m_memBlocks.drop s.evictCount ++
        SequentialBlockFile.appendBlocks s.m_blockSize s.m_samplesPerBlock nb
          lastB.offset ∧
      s₁.m_currentBlock = s.m_currentBlock.map
        (fun c => toInt32x ((toUInt32x c +
          (2 ^ 32 - SequentialBlockFile.minBlockOf s.m_currentBlock)) % 2 ^ 32)) ∧
      s₁.m_lastBlockFill = (if 0 < nb then 0 else s.m_lastBlockFill) ∧
      s₁.flushed = s.flushed ++
        (s.m_memBlocks.take s.evictCount).flatMap (fun b => b.data) := by
  cases hL : (s.m_memBlocks.drop s.evictCount).getLast? with
  | none =>
    exfalso
    simp only [SequentialBlockFile.allocateBlocks, hL] at h
    exact Option.noConfusion h
  | some lastB =>
    simp only [SequentialBlockFile.allocateBlocks, hL, Option.some.injEq] at h
    subst h
    refine ⟨lastB, _, rfl, rfl, rfl, rfl, rfl, rfl, rfl, rfl, ?_, rfl⟩
    by_cases hpos : (0 : Int) < toInt32x (mod64 (u64sub (u64add (u64sub (toUInt64x n)
        (u64sub (u64sub (u64add lastB.offset s.m_samplesPerBlock) 1) a))
        s.m_samplesPerBlock) 1 / s.m_samplesPerBlock))
    · rw [if_pos hpos, if_pos (by omega)]
    · rw [if_neg hpos, if_neg (by omega)]

theorem copyLoop_pres (C P ch : Nat) (data : List Int) (N : Int) (li : Nat) :
    ∀ (fuel : Nat) (blocks : List FileBlock) (w : Int) (si smp di bi lbf : Nat)
      (blocks' : List FileBlock) (bf lbf' : Nat),
      copyLoop C P ch data N li fuel blocks w si smp di bi lbf =
        some (blocks', bf, lbf') →
      blocks'.length = blocks.length ∧
      ∀ k, (blocks'.getD k default).offset = (blocks.getD k default).offset := by
  intro fuel
  induction fuel with
  | zero =>
    intro blocks w si smp di bi lbf blocks' bf lbf' h
    exact Option.noConfusion h
  | succ f ih =>
    intro blocks w si smp di bi lbf blocks' bf lbf' h
    rw [copyLoop] at h
    by_cases hw : w < N
    · rw [if_pos hw] at h
      by_cases hbi : bi < blocks.length
      · rw [if_pos hbi] at h
        have hrec := ih _ _ _ _ _ _ _ _ _ _ h
        constructor
        · rw [hrec.1, List.length_set]
        · intro k
          rw [hrec.2 k]
          by_cases hk : bi = k
          · subst hk
            rw [getD_set_self _ _ _ _ hbi]
          · rw [getD_set_ne _ _ _ _ _ hk]
      · rw [if_neg hbi] at h
        exact Option.noConfusion h
    · rw [if_neg hw] at h
      simp only [Option.some.injEq, Prod.mk.injEq] at h
      obtain ⟨h1, _, _⟩ := h
      subst h1
      exact ⟨rfl, fun k => rfl⟩

theorem allocateBlocks_pres_inv (s s₁ : SequentialBlockFile) (a : Nat) (n : Int)
    (hinv : WindowInv s) (h : s.allocateBlocks a n = some s₁) :
    WindowInv s₁ := by
  obtain ⟨lastB, nb, hL, hnb, hfile, hch, hspb, hbs, hblocks, hcur, hlbf, hfl⟩ :=
    allocateBlocks_cases s a n s₁ h
  obtain ⟨h1, h2, h3, h4⟩ := hinv
  have hdropne : s.m_memBlocks.drop s.evictCount ≠ [] := by
    intro hcon
    rw [hcon] at hL
    exact Option.noConfusion hL
  have hRlt : s.evictCount < s.m_memBlocks.length := by
    by_contra hge
    exact hdropne (List.drop_eq_nil_of_le (by omega))
  have hD : (s.m_memBlocks.drop s.evictCount).length =
      s.m_memBlocks.length - s.evictCount := List.length_drop _ _
  have hlast : lastB = (s.m_memBlocks.drop s.evictCount).getD
      ((s.m_memBlocks.drop s.evictCount).length - 1) default := by
    have h5 := getLast?_eq_getD _ hdropne
    rw [hL] at h5
    exact Option.some.inj h5
  have hlen₁ : s₁.m_memBlocks.length =
      (s.m_memBlocks.length - s.evictCount) + nb := by
    rw [hblocks, List.length_append, appendBlocks_length, hD]
  refine ⟨?_, ?_, ?_, ?_⟩
  · intro _
    have : 0 < s₁.m_memBlocks.length := by omega
    exact List.ne_nil_of_length_pos this
  · intro hfalse
    exfalso
    rw [hfile] at hfalse
    have := h2 hfalse
    rw [this] at hRlt
    simp at hRlt
  · intro i hi
    rw [hlen₁] at hi
    rw [hblocks]
    by_cases hiD : i < s.m_memBlocks.length - s.evictCount
    · rw [getD_append_lt _ _ _ _ (by rw [hD]; omega), getD_drop]
      exact h3 _ (by omega)
    · rw [getD_append_ge _ _ _ _ (by rw [hD]; omega)]
      rw [hD, appendBlocks_getD_offset_mod _ _ _ _ _ (by omega)]
      exact Nat.mod_lt _ (by norm_num)
  · intro i hi
    rw [hlen₁] at hi
    rw [hblocks, hspb]
    by_cases hiD : i + 1 < s.m_memBlocks.length - s.evictCount
    · rw [getD_append_lt _ _ _ _ (by rw [hD]; omega),
        getD_append_lt _ _ _ _ (by rw [hD]; omega), getD_drop, getD_drop]
      have := h4 (s.evictCount + i) (by omega)
      have harg : s.evictCount + (i + 1) = s.evictCount + i + 1 := by omega
      rw [harg]
      exact this
    · by_cases hieq : i + 1 = s.m_memBlocks.length - s.evictCount
      · have hnbpos : 0 < nb := by omega
        rw [getD_append_ge _ _ _ _ (by rw [hD]; omega),
          getD_append_lt _ _ _ _ (by rw [hD]; omega)]
        rw [hD, hieq, Nat.sub_self]
        rw [appendBlocks_getD_offset_mod _ _ _ _ _ hnbpos]
        have hgoal2 : (s.m_memBlocks.drop s.evictCount).getD i default = lastB := by
          rw [hlast, hD]
          congr 1
          omega
        rw [hgoal2]
        unfold u64add
        congr 1
        ring
      · have hge : s.m_memBlocks.length - s.evictCount ≤ i := by omega
        rw [getD_append_ge _ _ _ _ (by rw [hD]; omega),
          getD_append_ge _ _ _ _ (by rw [hD]; omega), hD]
        have harg : i + 1 - (s.m_memBlocks.length - s.evictCount) =
            (i - (s.m_memBlocks.length - s.evictCount)) + 1 := by omega
        rw [harg]
        exact appendBlocks_chain _ _ _ _ _ (by omega)


theorem preWriteState_fields (s s1 : SequentialBlockFile) (sp : Nat) (N : Int)
    (hprep : s.preWriteState sp N = some s1) :
    s1.m_file = s.m_file ∧ s1.m_nChannels = s.m_nChannels ∧
    s1.m_samplesPerBlock = s.m_samplesPerBlock ∧ s1.m_blockSize = s.m_blockSize := by
  unfold SequentialBlockFile.preWriteState at hprep
  split_ifs at hprep with hc
  · obtain ⟨lastB, nb, _, _, hfile, hch, hspb, hbs, _⟩ :=
      allocateBlocks_cases s sp N s1 hprep
    exact ⟨hfile, hch, hspb, hbs⟩
  · simp only [Option.some.injEq] at hprep
    rw [← hprep]
    exact ⟨rfl, rfl, rfl, rfl⟩

theorem writeChannel_pres_inv (s s' : SequentialBlockFile) (sp ch : Nat)
    (data : List Int) (N : Int) (r : Bool) (hinv : WindowInv s)
    (hw : s.writeChannel sp ch data N = some (r, s')) : WindowInv s' := by
  unfold SequentialBlockFile.writeChannel at hw
  by_cases hf : s.m_file = false
  · rw [if_pos hf] at hw
    simp only [Option.some.injEq, Prod.mk.injEq] at hw
    rw [← hw.2]
    exact hinv
  · rw [if_neg hf] at hw
    have hftrue : s.m_file = true := by
      cases hmf : s.m_file
      · exact absurd hmf hf
      · rfl
    cases hprep : s.preWriteState sp N with
    | none =>
      rw [hprep] at hw
      exact Option.noConfusion hw
    | some s1 =>
      rw [hprep] at hw
      simp only [Option.some_bind] at hw
      obtain ⟨hfeq, hcheq, hspbeq, hbseq⟩ := preWriteState_fields s s1 sp N hprep
      have hinv1 : WindowInv s1 := by
        unfold SequentialBlockFile.preWriteState at hprep
        split_ifs at hprep with hc
        · exact allocateBlocks_pres_inv s s1 sp N hinv hprep
        · simp only [Option.some.injEq] at hprep
          rw [← hprep]
          exact hinv
      obtain ⟨i1, i2, i3, i4⟩ := hinv1
      by_cases hscan : scanBack s1.m_memBlocks sp < 0
      · rw [if_pos hscan] at hw
        simp only [Option.some.injEq, Prod.mk.injEq] at hw
        rw [← hw.2]
        exact ⟨i1, i2, i3, i4⟩
      · rw [if_neg hscan] at hw
        rcases Option.map_eq_some'.mp hw with ⟨t, hcl, hfn⟩
        obtain ⟨blocks', bf, lbf'⟩ := t
        have hpres := copyLoop_pres _ _ _ _ _ _ _ _ _ _ _ _ _ _ _ _ _ hcl
        have hs' : s' = { s1 with
            m_memBlocks := blocks'
            m_lastBlockFill := lbf'
            m_currentBlock := juceArraySet s1.m_currentBlock ch
              ((bf : Int) - 1) } := (congrArg Prod.snd hfn).symm
        have hne1 : s1.m_memBlocks ≠ [] := i1 (hfeq.trans hftrue)
        rw [hs']
        refine ⟨?_, ?_, ?_, ?_⟩
        · intro _
          have h0 : 0 < blocks'.length := by
        
            rw [hpres.1]
            exact List.length_pos.mpr hne1
          exact List.ne_nil_of_length_pos h0
        · intro hfalse
          exfalso
          have : s.m_file = false := hfeq ▸ hfalse
          exact hf this
        · intro i hi
          rw [hpres.2 i]
          exact i3 i (by rw [← hpres.1]; exact hi)
        · intro i hi
          rw [hpres.2 i, hpres.2 (i + 1)]
          exact i4 i (by rw [← hpres.1]; exact hi)

theorem reachable_inv (s : SequentialBlockFile) (hr : Reachable s) :
    WindowInv s := by
  induction hr with
  | init nChannels spb h1 h2 =>
    refine ⟨?_, ?_, ?_, ?_⟩
    · intro hcon
      exact absurd hcon (by simp [SequentialBlockFile.init])
    · intro _
      rfl
    · intro i hi
      simp [SequentialBlockFile.init] at hi
    · intro i hi
      simp [SequentialBlockFile.init] at hi
  | openStep s streamOk hr hclosed ih =>
    have hempty : s.m_memBlocks = [] := ih.2.1 hclosed
    cases streamOk with
    | false =>
      have hstate : (s.openFile false).2 = { s with m_file := false } := by
        simp [SequentialBlockFile.openFile]
      rw [hstate]
      refine ⟨?_, ?_, ?_, ?_⟩
      · intro hcon
        exact absurd hcon (by simp)
      · intro _
        exact hempty
      · intro i hi
        simp only [hempty, List.length_nil] at hi
        omega
      · intro i hi
        simp only [hempty, List.length_nil] at hi
        omega
    | true =>
      have hstate : (s.openFile true).2 =
          { s with m_file := true, m_memBlocks := [⟨0, List.replicate s.m_blockSize 0⟩] } := by
        simp [SequentialBlockFile.openFile, hempty]
      rw [hstate]
      refine ⟨?_, ?_, ?_, ?_⟩
      · intro _
        simp
      · intro hcon
        simp at hcon
      · intro i hi
        simp only [List.length_cons, List.length_nil] at hi
        have hz : i = 0 := by omega
        subst hz
        norm_num
      · intro i hi
        simp only [List.length_cons, List.length_nil] at hi
        omega
  | writeStep s s' sp ch data N r hr hch hN hw ih =>
    exact writeChannel_pres_inv s s' sp ch data N r ih hw
  | allocStep s s' a n hr hne ha ih =>
    exact allocateBlocks_pres_inv s s' a n ih ha

/-- C7, amended.  For every state reachable with openFile invoked only
while no file is open (the amendment forced by the double-open refuting
computation), consecutive resident blocks satisfy the source's contiguity
equation blocks[i+1].offset == blocks[i].offset + samplesPerBlock in its
uint64 arithmetic, equivalently blocks[i].offset = blocks[0].offset +
i * samplesPerBlock (mod 2^64): eviction removes only a window prefix and
allocation appends only at successive offsets. -/
theorem offset_contiguity_of_reachable (s : SequentialBlockFile)
    (hr : Reachable s) :
    (∀ i, i + 1 < s.m_memBlocks.length →
      (s.m_memBlocks.getD (i + 1) default).offset =
        u64add (s.m_memBlocks.getD i default).offset s.m_samplesPerBlock) ∧
    (∀ i < s.m_memBlocks.length,
      (s.m_memBlocks.getD i default).offset =
        mod64 ((s.m_memBlocks.getD 0 default).offset +
          i * s.m_samplesPerBlock)) := by
  obtain ⟨_, _, h3, h4⟩ := reachable_inv s hr
  refine ⟨h4, ?_⟩
  intro i
  induction i with
  | zero =>
    intro h0
    rw [Nat.zero_mul, Nat.add_zero]
    exact (mod64_eq_of_lt (h3 0 h0)).symm
  | succ j ihj =>
    intro hj
    rw [h4 j hj, ihj (by omega)]
    unfold u64add mod64
    rw [Nat.mod_add_mod]
    congr 1
    ring

theorem offset_contiguity_of_reachable_witness :
    (exA3.m_memBlocks.getD 1 default).offset =
      u64add (exA3.m_memBlocks.getD 0 default).offset exA3.m_samplesPerBlock :=
  (offset_contiguity_of_reachable exA3 reachable_exA3).1 0 (by decide)

/-- C10.  The destructor unconditionally partial-flushes m_memBlocks[0];
for every reachable state in which a file is open (openFile succeeded,
and the window can never become empty afterwards) the access is in bounds
and the teardown produces an output; for a reachable state in which no
file is open, no block is resident and the access has no block to read
(in the source, a null dereference). -/
theorem destructorFlush_in_bounds_after_open (s : SequentialBlockFile)
    (hr : Reachable s) :
    (s.m_file = true → (s.destructorFlush).isSome = true) ∧
    (s.m_file = false → s.m_memBlocks = [] ∧ s.destructorFlush = none) := by
  obtain ⟨h1, h2, _, _⟩ := reachable_inv s hr
  constructor
  · intro hopen
    have hne := h1 hopen
    have hlen : 0 < s.m_memBlocks.length := List.length_pos.mpr hne
    simp only [SequentialBlockFile.destructorFlush, removeFlushLoop_eq]
    rw [List.head?_drop, List.getElem?_eq_getElem (by omega)]
    rfl
  · intro hclosed
    have hempty := h2 hclosed
    refine ⟨hempty, ?_⟩
    simp [SequentialBlockFile.destructorFlush, hempty, removeFlushLoop_eq]

theorem destructorFlush_in_bounds_after_open_witness :
    (exA0.destructorFlush).isSome = true ∧
    ((SequentialBlockFile.init 2 4).m_file = false →
      (SequentialBlockFile.init 2 4).m_memBlocks = [] ∧
      (SequentialBlockFile.init 2 4).destructorFlush = none) :=
  ⟨(destructorFlush_in_bounds_after_open exA0 reachable_exA0).1 (by decide),
    (destructorFlush_in_bounds_after_open (SequentialBlockFile.init 2 4)
      (Reachable.init 2 4 (by norm_num) (by norm_num))).2⟩

/-
Eviction safety (C1) and the allocation count (C5).
-/

theorem evictCount_le_written (s : SequentialBlockFile) (c : Int)
    (hc : c ∈ s.m_currentBlock) (h0 : 0 ≤ c) (hlt : c < 2 ^ 31) :
    (s.evictCount : Int) ≤ c := by
  have hmin := minBlockOf_le_mem s.m_currentBlock c hc
  rw [toUInt32x_of_nonneg h0 (by omega)] at hmin
  have hminlt : SequentialBlockFile.minBlockOf s.m_currentBlock < 2 ^ 31 := by
    omega
  unfold SequentialBlockFile.evictCount natClampInt
  rw [toInt32x_small hminlt]
  simp only [Int.toNat_natCast]
  omega

/-- C1, amended.  During allocateBlocks, exactly evictCount blocks are
removed, all from the front of the window, and every channel whose cursor
is nonnegative (i.e. that has ever written, since rebasing keeps written
cursors nonnegative) has its cursor at or above the removal count: a
block at relative index i is evicted only when every written channel's
cursor exceeds i.  A channel that has never written carries a negative
cursor, which the int-to-unsigned conversion maps above 2^31, so it is
excluded from the minimum and imposes no lower bound: as the refuting
computation shows, block 0 can be evicted while such a channel exists.
The cursor range hypothesis is the int value range of the source. -/
theorem allocateBlocks_eviction_respects_written_cursors
    (s : SequentialBlockFile) (a : Nat) (n : Int) (s' : SequentialBlockFile)
    (hcur : ∀ c ∈ s.m_currentBlock, c < 2 ^ 31)
    (h : s.allocateBlocks a n = some s') :
    (∃ tl, s'.m_memBlocks = s.m_memBlocks.drop s.evictCount ++ tl) ∧
    (∀ c ∈ s.m_currentBlock, 0 ≤ c → (s.evictCount : Int) ≤ c) ∧
    (∀ i < s.evictCount, ∀ c ∈ s.m_currentBlock, 0 ≤ c → (i : Int) < c) := by
  obtain ⟨lastB, nb, hL, hnb, hfile, hch, hspb, hbs, hblocks, hcur', hlbf, hfl⟩ :=
    allocateBlocks_cases s a n s' h
  refine ⟨⟨_, hblocks⟩, ?_, ?_⟩
  · intro c hc h0
    exact evictCount_le_written s c hc h0 (hcur c hc)
  · intro i hi c hc h0
    have := evictCount_le_written s c hc h0 (hcur c hc)
    omega

theorem allocateBlocks_eviction_respects_written_cursors_witness :
    (∃ tl, exA2alloc.m_memBlocks = exA2.m_memBlocks.drop exA2.evictCount ++ tl) ∧
    (∀ c ∈ exA2.m_currentBlock, 0 ≤ c → (exA2.evictCount : Int) ≤ c) ∧
    (∀ i < exA2.evictCount, ∀ c ∈ exA2.m_currentBlock, 0 ≤ c → (i : Int) < c) :=
  allocateBlocks_eviction_respects_written_cursors exA2 4 1 exA2alloc
    (by decide) (by decide)

theorem appendBlocks_getD_offset (bs spb n o i : Nat) (hi : i < n)
    (hb : o + n * spb < 2 ^ 64) :
    ((SequentialBlockFile.appendBlocks bs spb n o).getD i default).offset =
      o + (i + 1) * spb := by
  rw [appendBlocks_getD_offset_mod bs spb n o i hi]
  apply Nat.mod_eq_of_lt
  have h1 : (i + 1) * spb ≤ n * spb := Nat.mul_le_mul_right _ (by omega)
  omega

theorem newBlockCount_eval (T P a Nn : Nat) (hP : 1 ≤ P)
    (hTb : T + P < 2 ^ 30) (hab : a + Nn < 2 ^ 30) (hguard : T + P < a + Nn) :
    (toInt32x (mod64 (u64sub (u64add (u64sub Nn
        (u64sub (u64sub (u64add T P) 1) a)) P) 1 / P))).toNat
      = (a + Nn - T) / P := by
  have e1 : u64add T P = T + P := u64add_eq (by omega)
  have e2 : u64sub (T + P) 1 = T + P - 1 := u64sub_eq_of_le (by omega) (by omega)
  have e3 : u64sub Nn (u64sub (T + P - 1) a) = a + Nn - (T + P - 1) := by
    by_cases hcase : a ≤ T + P - 1
    · rw [u64sub_eq_of_le hcase (by omega)]
      rw [u64sub_eq_of_le (by omega) (by omega)]
      omega
    · have hin : u64sub (T + P - 1) a = T + P - 1 + 2 ^ 64 - a :=
        u64sub_eq_of_lt (by omega) (by omega)
      rw [hin, u64sub_eq_of_lt (by omega) (by omega)]
      omega
  rw [e1, e2, e3]
  have e4 : u64add (a + Nn - (T + P - 1)) P = a + Nn - (T + P - 1) + P :=
    u64add_eq (by omega)
  rw [e4]
  have e5 : u64sub (a + Nn - (T + P - 1) + P) 1 = a + Nn - T :=  by
    rw [u64sub_eq_of_le (by omega) (by omega)]
    omega
  rw [e5]
  have e6 : mod64 ((a + Nn - T) / P) = (a + Nn - T) / P := by
    apply mod64_eq_of_lt
    have := Nat.div_le_self (a + Nn - T) P
    omega
  rw [e6]
  have e7 : (a + Nn - T) / P < 2 ^ 31 := by
    have := Nat.div_le_self (a + Nn - T) P
    omega
  rw [toInt32x_small e7]
  simp only [Int.toNat_natCast]

/-- The last block of the window survives eviction: when allocateBlocks
returns a state, the last block of the dropped window is the last block
of the original window. -/
theorem allocate_lastB_eq (s : SequentialBlockFile) (lastB : FileBlock)
    (hL : (s.m_memBlocks.drop s.evictCount).getLast? = some lastB) :
    lastB = s.m_memBlocks.getD (s.m_memBlocks.length - 1) default := by
  have hdropne : s.m_memBlocks.drop s.evictCount ≠ [] := by
    intro hcon
    rw [hcon] at hL
    exact Option.noConfusion hL
  have hRlt : s.evictCount < s.m_memBlocks.length := by
    by_contra hge
    exact hdropne (List.drop_eq_nil_of_le (by omega))
  have h5 := getLast?_eq_getD _ hdropne
  rw [hL] at h5
  have h6 := Option.some.inj h5
  rw [h6, List.length_drop, getD_drop]
  congr 1
  omega

/-- C5, amended.  When the tail block cannot cover the write, the number
of appended blocks is floor((startPos + nSamples - lastOffset) /
samplesPerBlock) = ceil((shortfall + 1) / samplesPerBlock), where
shortfall = startPos + nSamples - (lastOffset + samplesPerBlock): one
more than the claimed ceil(shortfall / samplesPerBlock) exactly when the
shortfall is a positive multiple of samplesPerBlock, because the source
derives the needed space from the inclusive maxAddr = lastOffset +
samplesPerBlock - 1.  Each new block is placed at the previous last
offset plus samplesPerBlock, as claimed. -/
theorem allocateBlocks_new_block_count (s : SequentialBlockFile) (a : Nat)
    (n : Int) (hP : 1 ≤ s.m_samplesPerBlock) (hn : 0 ≤ n)
    (hTb : (s.m_memBlocks.getD (s.m_memBlocks.length - 1) default).offset +
      s.m_samplesPerBlock < 2 ^ 30)
    (hab : a + n.toNat < 2 ^ 30)
    (hguard : (s.m_memBlocks.getD (s.m_memBlocks.length - 1) default).offset +
      s.m_samplesPerBlock < a + n.toNat)
    (s' : SequentialBlockFile) (h : s.allocateBlocks a n = some s') :
    s'.m_memBlocks = s.m_memBlocks.drop s.evictCount ++
      SequentialBlockFile.appendBlocks s.m_blockSize s.m_samplesPerBlock
        ((a + n.toNat -
          (s.m_memBlocks.getD (s.m_memBlocks.length - 1) default).offset) /
          s.m_samplesPerBlock)
        ((s.m_memBlocks.getD (s.m_memBlocks.length - 1) default).offset) ∧
    (∀ i < (a + n.toNat -
        (s.m_memBlocks.getD (s.m_memBlocks.length - 1) default).offset) /
        s.m_samplesPerBlock,
      ((SequentialBlockFile.appendBlocks s.m_blockSize s.m_samplesPerBlock
          ((a + n.toNat -
            (s.m_memBlocks.getD (s.m_memBlocks.length - 1) default).offset) /
            s.m_samplesPerBlock)
          ((s.m_memBlocks.getD (s.m_memBlocks.length - 1) default).offset)).getD
          i default).offset =
        (s.m_memBlocks.getD (s.m_memBlocks.length - 1) default).offset +
          (i + 1) * s.m_samplesPerBlock) := by
  obtain ⟨lastB, nb, hL, hnb, hfile, hch, hspb, hbs, hblocks, hcur', hlbf, hfl⟩ :=
    allocateBlocks_cases s a n s' h
  have hlastB := allocate_lastB_eq s lastB hL
  have hN64 : n < 2 ^ 64 := by
    have h1 : n = (n.toNat : Int) := (Int.toNat_of_nonneg hn).symm
    rw [h1]
    exact_mod_cast (by omega : n.toNat < 2 ^ 64)
  have hU : toUInt64x n = n.toNat := toUInt64x_of_nonneg hn hN64
  have hnbval : nb = (a + n.toNat -
      (s.m_memBlocks.getD (s.m_memBlocks.length - 1) default).offset) /
      s.m_samplesPerBlock := by
    rw [hnb, hlastB, hU]
    exact newBlockCount_eval _ _ _ _ hP hTb hab hguard
  constructor
  · rw [hblocks, hnbval, hlastB]
  · intro i hi
    apply appendBlocks_getD_offset
    · exact hi
    · have h2 : ((a + n.toNat -
          (s.m_memBlocks.getD (s.m_memBlocks.length - 1) default).offset) /
          s.m_samplesPerBlock) * s.m_samplesPerBlock ≤
          a + n.toNat -
          (s.m_memBlocks.getD (s.m_memBlocks.length - 1) default).offset :=
        Nat.div_mul_le_self _ _
      omega

theorem allocateBlocks_new_block_count_witness :
    exB1alloc.m_memBlocks = exB1.m_memBlocks.drop exB1.evictCount ++
      SequentialBlockFile.appendBlocks exB1.m_blockSize exB1.m_samplesPerBlock
        ((4 + (5 : Int).toNat -
          (exB1.m_memBlocks.getD (exB1.m_memBlocks.length - 1) default).offset) /
          exB1.m_samplesPerBlock)
        ((exB1.m_memBlocks.getD (exB1.m_memBlocks.length - 1) default).offset) ∧
    (∀ i < (4 + (5 : Int).toNat -
        (exB1.m_memBlocks.getD (exB1.m_memBlocks.length - 1) default).offset) /
        exB1.m_samplesPerBlock,
      ((SequentialBlockFile.appendBlocks exB1.m_blockSize exB1.m_samplesPerBlock
          ((4 + (5 : Int).toNat -
            (exB1.m_memBlocks.getD (exB1.m_memBlocks.length - 1) default).offset) /
            exB1.m_samplesPerBlock)
          ((exB1.m_memBlocks.getD (exB1.m_memBlocks.length - 1) default).offset)).getD
          i default).offset =
        (exB1.m_memBlocks.getD (exB1.m_memBlocks.length - 1) default).offset +
          (i + 1) * exB1.m_samplesPerBlock) :=
  allocateBlocks_new_block_count exB1 4 5 (by decide) (by decide) (by decide)
    (by decide) (by decide) exB1alloc (by decide)

/-
The backward scan and the stale-write path (C2).
-/

theorem scanGo_none (blocks : List FileBlock) (sp : Nat) :
    ∀ n, (∀ k < n, sp < (blocks.getD k default).offset) →
      scanGo blocks sp n = -1 := by
  intro n
  induction n with
  | zero => intro _; rfl
  | succ m ih =>
    intro hall
    simp only [scanGo]
    rw [if_neg (by have := hall m (by omega); omega)]
    exact ih (fun k hk => hall k (by omega))

theorem scanGo_found (blocks : List FileBlock) (sp : Nat) :
    ∀ n k, k < n → (blocks.getD k default).offset ≤ sp →
      (∀ k', k < k' → k' < n → sp < (blocks.getD k' default).offset) →
      scanGo blocks sp n = (k : Int) := by
  intro n
  induction n with
  | zero =>
    intro k hk _ _
    exact absurd hk (by omega)
  | succ m ih =>
    intro k hk hle hgt
    simp only [scanGo]
    by_cases hkm : k = m
    · subst hkm
      rw [if_pos hle]
    · have hlt := hgt m (by omega) (by omega)
      rw [if_neg (by omega)]
      exact ih k (by omega) hle (fun k' h1 h2 => hgt k' h1 (by omega))

theorem scanBack_contig (blocks : List FileBlock) (sp off0 P : Nat)
    (hP : 1 ≤ P)
    (hcontig : ∀ i < blocks.length,
      (blocks.getD i default).offset = off0 + i * P)
    (hLpos : 0 < blocks.length) (hsp : off0 ≤ sp) :
    scanBack blocks sp =
      ((min ((sp - off0) / P) (blocks.length - 1) : Nat) : Int) := by
  apply scanGo_found
  · omega
  · rw [hcontig _ (by omega)]
    have h1 : min ((sp - off0) / P) (blocks.length - 1) ≤ (sp - off0) / P :=
      min_le_left _ _
    have h2 : min ((sp - off0) / P) (blocks.length - 1) * P ≤
        ((sp - off0) / P) * P := Nat.mul_le_mul_right _ h1
    have h3 : ((sp - off0) / P) * P ≤ sp - off0 := Nat.div_mul_le_self _ _
    omega
  · intro k' hgt hlt
    rw [hcontig _ hlt]
    have hmin : min ((sp - off0) / P) (blocks.length - 1) = (sp - off0) / P := by
      rcases Nat.le_total ((sp - off0) / P) (blocks.length - 1) with h | h
      · exact min_eq_left h
      · exfalso
        rw [min_eq_right h] at hgt
        omega
    rw [hmin] at hgt
    have h4 : sp - off0 < ((sp - off0) / P + 1) * P := by
      have hdm := Nat.div_add_mod (sp - off0) P
      have hmod := Nat.mod_lt (sp - off0) (show 0 < P by omega)
      have hexp : ((sp - off0) / P + 1) * P = P * ((sp - off0) / P) + P := by ring
      omega
    have h5 : ((sp - off0) / P + 1) * P ≤ k' * P := Nat.mul_le_mul_right _ (by omega)
    omega

/-- C2, amended.  A stale write that does not trigger the capacity check
(startPos + nSamples fits under the tail block's end) returns failure
with the state unchanged: nothing is copied, evicted, allocated or moved.
When the stale write does trigger allocateBlocks first, the call still
copies nothing and still returns false, but blocks may be evicted and
appended and cursors rebased before the backward scan fails, as the
refuting computation shows. -/
theorem writeChannel_stale_no_alloc_leaves_state_unchanged
    (s : SequentialBlockFile) (sp ch : Nat) (data : List Int) (N : Int)
    (hs : Sane s) (hfile : s.m_file = true) (hN : 0 ≤ N)
    (hb : sp + N.toNat < 2 ^ 30)
    (hstale : sp < (s.m_memBlocks.getD 0 default).offset)
    (hcap : sp + N.toNat ≤
      (s.m_memBlocks.getD (s.m_memBlocks.length - 1) default).offset +
        s.m_samplesPerBlock) :
    s.writeChannel sp ch data N = some (false, s) := by
  have hlen : 0 < s.m_memBlocks.length := List.length_pos.mpr hs.hne
  have hTb : (s.m_memBlocks.getD (s.m_memBlocks.length - 1) default).offset +
      s.m_samplesPerBlock < 2 ^ 30 := by
    have h1 := hs.hcontig (s.m_memBlocks.length - 1) (by omega)
    have h2 := hs.hbound
    have h3 : (s.m_memBlocks.length - 1) * s.m_samplesPerBlock +
        s.m_samplesPerBlock = s.m_memBlocks.length * s.m_samplesPerBlock := by
      have h4 : s.m_memBlocks.length - 1 + 1 = s.m_memBlocks.length := by omega
      calc (s.m_memBlocks.length - 1) * s.m_samplesPerBlock + s.m_samplesPerBlock
          = (s.m_memBlocks.length - 1 + 1) * s.m_samplesPerBlock := by ring
        _ = s.m_memBlocks.length * s.m_samplesPerBlock := by rw [h4]
    omega
  have hN64 : N < 2 ^ 64 := by
    have h1 : N = (N.toNat : Int) := (Int.toNat_of_nonneg hN).symm
    rw [h1]
    exact_mod_cast (by omega : N.toNat < 2 ^ 64)
  have hcond : ¬(((s.m_memBlocks.length : Int) - 1 < 0) ∨
      u64add (s.m_memBlocks.getD (s.m_memBlocks.length - 1) default).offset
        s.m_samplesPerBlock < u64add (mod64 sp) (toUInt64x N)) := by
    push_neg
    constructor
    · have : (1 : Int) ≤ (s.m_memBlocks.length : Int) := by exact_mod_cast hlen
      omega
    · have e1 : mod64 sp = sp := mod64_eq_of_lt (by omega)
      have e2 : toUInt64x N = N.toNat := toUInt64x_of_nonneg hN hN64
      have e3 : u64add sp N.toNat = sp + N.toNat := u64add_eq (by omega)
      have e4 : u64add
          (s.m_memBlocks.getD (s.m_memBlocks.length - 1) default).offset
          s.m_samplesPerBlock =
          (s.m_memBlocks.getD (s.m_memBlocks.length - 1) default).offset +
          s.m_samplesPerBlock := u64add_eq (by omega)
      rw [e1, e2, e3, e4]
      omega
  have hprep : s.preWriteState sp N = some s := by
    unfold SequentialBlockFile.preWriteState
    rw [if_neg hcond]
  have hscan : scanBack s.m_memBlocks sp = -1 := by
    apply scanGo_none
    intro k hk
    rw [hs.hcontig k hk]
    omega
  simp only [SequentialBlockFile.writeChannel, hfile, hprep, Option.some_bind,
    hscan]
  norm_num

theorem sane_exB3 : Sane exB3 :=
  ⟨by decide, by decide, by decide, by decide, by unfold Contig; decide,
   by unfold DataSized; decide, by decide, by decide⟩

theorem writeChannel_stale_no_alloc_leaves_state_unchanged_witness :
    exB3.writeChannel 0 0 [7, 7, 7, 7] 4 = some (false, exB3) :=
  writeChannel_stale_no_alloc_leaves_state_unchanged exB3 0 0 [7, 7, 7, 7] 4
    sane_exB3 (by decide) (by decide) (by decide) (by decide) (by decide)

/-
The write path: capacity check, allocation analysis and the copy loop.
-/

theorem toUInt64x_toNat (n : Int) (hn : 0 ≤ n) (h : n.toNat < 2 ^ 64) :
    toUInt64x n = n.toNat := by
  have h2 : n < 2 ^ 64 := by omega
  exact toUInt64x_of_nonneg hn h2

theorem sane_tail_bound (s : SequentialBlockFile) (hs : Sane s) :
    (s.m_memBlocks.getD (s.m_memBlocks.length - 1) default).offset +
      s.m_samplesPerBlock < 2 ^ 30 := by
  have hlen : 0 < s.m_memBlocks.length := List.length_pos.mpr hs.hne
  have h1 := hs.hcontig (s.m_memBlocks.length - 1) (by omega)
  have h2 := hs.hbound
  have h3 : (s.m_memBlocks.length - 1) * s.m_samplesPerBlock +
      s.m_samplesPerBlock = s.m_memBlocks.length * s.m_samplesPerBlock := by
    have h4 : s.m_memBlocks.length - 1 + 1 = s.m_memBlocks.length := by omega
    calc (s.m_memBlocks.length - 1) * s.m_samplesPerBlock + s.m_samplesPerBlock
        = (s.m_memBlocks.length - 1 + 1) * s.m_samplesPerBlock := by ring
      _ = s.m_memBlocks.length * s.m_samplesPerBlock := by rw [h4]
  omega

theorem evictCount_lt (s : SequentialBlockFile) (hne : s.m_memBlocks ≠ [])
    (hcur : ∀ c ∈ s.m_currentBlock,
      -(2 ^ 31 : Int) ≤ c ∧ c < (s.m_memBlocks.length : Int))
    (hlen31 : s.m_memBlocks.length < 2 ^ 31) :
    s.evictCount < s.m_memBlocks.length := by
  have hlen : 0 < s.m_memBlocks.length := List.length_pos.mpr hne
  by_cases hex : ∃ c ∈ s.m_currentBlock, 0 ≤ c
  · obtain ⟨c, hc, h0⟩ := hex
    have hlt : c < (s.m_memBlocks.length : Int) := (hcur c hc).2
    have hcl : c < 2 ^ 31 := by omega
    have h1 := evictCount_le_written s c hc h0 hcl
    omega
  · push_neg at hex
    have hminge : 2 ^ 31 ≤ SequentialBlockFile.minBlockOf s.m_currentBlock :=
      minBlockOf_ge _ _ (by norm_num)
        (fun c hc => toUInt32x_neg_ge (hcur c hc).1 (hex c hc))
    have hminle := minBlockOf_le_init s.m_currentBlock
    have hz : (toInt32x
        (SequentialBlockFile.minBlockOf s.m_currentBlock)).toNat = 0 :=
      toInt32x_high_toNat hminge (by omega)
    unfold SequentialBlockFile.evictCount natClampInt
    rw [hz]
    omega

theorem allocateBlocks_sane (s : SequentialBlockFile) (a : Nat) (n : Int)
    (hs : Sane s) (hn : 0 ≤ n) (hab : a + n.toNat < 2 ^ 30)
    (hguard : (s.m_memBlocks.getD (s.m_memBlocks.length - 1) default).offset +
      s.m_samplesPerBlock < a + n.toNat) :
    ∃ s1, s.allocateBlocks a n = some s1 ∧
      s1.m_file = s.m_file ∧ s1.m_nChannels = s.m_nChannels ∧
      s1.m_samplesPerBlock = s.m_samplesPerBlock ∧
      s1.m_blockSize = s.m_blockSize ∧ s1.m_memBlocks ≠ [] ∧
      (∀ i < s1.m_memBlocks.length, (s1.m_memBlocks.getD i default).offset =
        (s1.m_memBlocks.getD 0 default).offset + i * s.m_samplesPerBlock) ∧
      (∀ b ∈ s1.m_memBlocks, b.data.length = s.m_blockSize) ∧
      (s1.m_memBlocks.getD 0 default).offset +
        s1.m_memBlocks.length * s.m_samplesPerBlock < 2 ^ 31 ∧
      a + n.toNat ≤ (s1.m_memBlocks.getD 0 default).offset +
        s1.m_memBlocks.length * s.m_samplesPerBlock ∧
      (s1.m_memBlocks.getD 0 default).offset ≤
        (s.m_memBlocks.getD (s.m_memBlocks.length - 1) default).offset := by
  have hlen : 0 < s.m_memBlocks.length := List.length_pos.mpr hs.hne
  have hP := hs.hP
  have hTb := sane_tail_bound s hs
  have hlen31 : s.m_memBlocks.length < 2 ^ 31 := by
    have h1 : s.m_memBlocks.length ≤
        s.m_memBlocks.length * s.m_samplesPerBlock :=
      Nat.le_mul_of_pos_right _ (by omega)
    have h2 := hs.hbound
    omega
  have hR : s.evictCount < s.m_memBlocks.length :=
    evictCount_lt s hs.hne hs.hcur hlen31
  have hdropne : s.m_memBlocks.drop s.evictCount ≠ [] := by
    intro hcon
    have h1 := congrArg List.length hcon
    rw [List.length_drop] at h1
    simp at h1
    omega
  have hL := getLast?_eq_getD (s.m_memBlocks.drop s.evictCount) hdropne
  have hex : ∃ s1, s.allocateBlocks a n = some s1 := by
    simp only [SequentialBlockFile.allocateBlocks, hL]
    exact ⟨_, rfl⟩
  obtain ⟨s1, hsome⟩ := hex
  obtain ⟨lastB, nb, hL', hnb, hfile, hch, hspb, hbs, hblocks, hcur', hlbf, hfl⟩ :=
    allocateBlocks_cases s a n s1 hsome
  have hlastB := allocate_lastB_eq s lastB hL'
  have hT : lastB.offset = (s.m_memBlocks.getD 0 default).offset +
      (s.m_memBlocks.length - 1) * s.m_samplesPerBlock := by
    rw [hlastB]
    exact hs.hcontig _ (by omega)
  have hTguard : lastB.offset + s.m_samplesPerBlock < a + n.toNat := by
    rw [hlastB]
    exact hguard
  have hTb' : lastB.offset + s.m_samplesPerBlock < 2 ^ 30 := by
    rw [hlastB]
    exact hTb
  have hU : toUInt64x n = n.toNat := toUInt64x_toNat n hn (by omega)
  have hnbval : nb = (a + n.toNat - lastB.offset) / s.m_samplesPerBlock := by
    rw [hnb, hU]
    exact newBlockCount_eval lastB.offset s.m_samplesPerBlock a n.toNat hP
      hTb' hab hTguard
  -- product bookkeeping
  have p1 : s.evictCount * s.m_samplesPerBlock +
      (s.m_memBlocks.length - s.evictCount) * s.m_samplesPerBlock =
      s.m_memBlocks.length * s.m_samplesPerBlock := by
    rw [← Nat.add_mul]
    congr 1
    omega
  have p2 : (s.m_memBlocks.length - 1) * s.m_samplesPerBlock +
      s.m_samplesPerBlock = s.m_memBlocks.length * s.m_samplesPerBlock := by
    have h4 : s.m_memBlocks.length - 1 + 1 = s.m_memBlocks.length := by omega
    calc (s.m_memBlocks.length - 1) * s.m_samplesPerBlock + s.m_samplesPerBlock
        = (s.m_memBlocks.length - 1 + 1) * s.m_samplesPerBlock := by ring
      _ = s.m_memBlocks.length * s.m_samplesPerBlock := by rw [h4]
  have p3 : nb * s.m_samplesPerBlock ≤ a + n.toNat - lastB.offset := by
    rw [hnbval]
    exact Nat.div_mul_le_self _ _
  have p4 := Nat.div_add_mod (a + n.toNat - lastB.offset) s.m_samplesPerBlock
  have p5 : (a + n.toNat - lastB.offset) % s.m_samplesPerBlock <
      s.m_samplesPerBlock := Nat.mod_lt _ (by omega)
  have p6 : s.m_samplesPerBlock *
      ((a + n.toNat - lastB.offset) / s.m_samplesPerBlock) =
      nb * s.m_samplesPerBlock := by
    rw [hnbval]
    ring
  have hlen₁ : s1.m_memBlocks.length =
      (s.m_memBlocks.length - s.evictCount) + nb := by
    rw [hblocks, List.length_append, appendBlocks_length, List.length_drop]
  have hoff0' : (s1.m_memBlocks.getD 0 default).offset =
      (s.m_memBlocks.getD 0 default).offset +
        s.evictCount * s.m_samplesPerBlock := by
    rw [hblocks, getD_append_lt _ _ _ _ (by rw [List.length_drop]; omega),
      getD_drop, Nat.add_zero]
    exact hs.hcontig _ (by omega)
  have happbound : lastB.offset + nb * s.m_samplesPerBlock < 2 ^ 64 := by
    omega
  refine ⟨s1, hsome, hfile, hch, hspb, hbs, ?_, ?_, ?_, ?_, ?_, ?_⟩
  · have h0 : 0 < s1.m_memBlocks.length := by omega
    exact List.ne_nil_of_length_pos h0
  · intro i hi
    rw [hlen₁] at hi
    have hoff0x := hoff0'
    rw [hblocks] at hoff0x
    rw [hblocks, hoff0x]
    by_cases hiD : i < s.m_memBlocks.length - s.evictCount
    · rw [getD_append_lt _ _ _ _ (by rw [List.length_drop]; omega), getD_drop,
        hs.hcontig _ (by omega)]
      have q1 : (s.evictCount + i) * s.m_samplesPerBlock =
          s.evictCount * s.m_samplesPerBlock + i * s.m_samplesPerBlock := by
        ring
      omega
    · rw [getD_append_ge _ _ _ _ (by rw [List.length_drop]; omega),
        List.length_drop]
      obtain ⟨j, hj⟩ : ∃ j, i = (s.m_memBlocks.length - s.evictCount) + j :=
        ⟨i - (s.m_memBlocks.length - s.evictCount), by omega⟩
      subst hj
      have hidx : s.m_memBlocks.length - s.evictCount + j -
          (s.m_memBlocks.length - s.evictCount) = j := by omega
      rw [hidx, appendBlocks_getD_offset _ _ _ _ _ (by omega) happbound, hT]
      have q1 : (j + 1) * s.m_samplesPerBlock =
          j * s.m_samplesPerBlock + s.m_samplesPerBlock := by ring
      have q2 : (s.m_memBlocks.length - s.evictCount + j) * s.m_samplesPerBlock =
          (s.m_memBlocks.length - s.evictCount) * s.m_samplesPerBlock +
          j * s.m_samplesPerBlock := by ring
      omega
  · intro b hb
    rw [hblocks] at hb
    rcases List.mem_append.mp hb with h | h
    · exact hs.hdlen b (List.mem_of_mem_drop h)
    · rw [appendBlocks_data_mem _ _ _ _ _ h]
      simp
  · rw [hoff0', hlen₁]
    have q2 : ((s.m_memBlocks.length - s.evictCount) + nb) *
        s.m_samplesPerBlock =
        (s.m_memBlocks.length - s.evictCount) * s.m_samplesPerBlock +
        nb * s.m_samplesPerBlock := by ring
    omega
  · rw [hoff0', hlen₁]
    have q2 : ((s.m_memBlocks.length - s.evictCount) + nb) *
        s.m_samplesPerBlock =
        (s.m_memBlocks.length - s.evictCount) * s.m_samplesPerBlock +
        nb * s.m_samplesPerBlock := by ring
    omega
  · rw [hoff0', hs.hcontig (s.m_memBlocks.length - 1) (by omega)]
    have q3 : s.evictCount * s.m_samplesPerBlock ≤
        (s.m_memBlocks.length - 1) * s.m_samplesPerBlock :=
      Nat.mul_le_mul_right _ (by omega)
    omega

theorem preWriteState_spec (s : SequentialBlockFile) (sp : Nat) (N : Int)
    (hs : Sane s) (hfile : s.m_file = true) (hN : 0 ≤ N)
    (hb : sp + N.toNat < 2 ^ 30) :
    ∃ s1, s.preWriteState sp N = some s1 ∧
      Ready s1 s.m_nChannels s.m_samplesPerBlock s.m_blockSize (sp + N.toNat) ∧
      (s1 = s ∨ ((s1.m_memBlocks.getD 0 default).offset ≤
        (s.m_memBlocks.getD (s.m_memBlocks.length - 1) default).offset ∧
        (s.m_memBlocks.getD (s.m_memBlocks.length - 1) default).offset +
          s.m_samplesPerBlock < sp + N.toNat)) := by
  have hlen : 0 < s.m_memBlocks.length := List.length_pos.mpr hs.hne
  have hTb := sane_tail_bound s hs
  have hN64 : N < 2 ^ 64 := by omega
  have e1 : mod64 sp = sp := mod64_eq_of_lt (by omega)
  have e2 : toUInt64x N = N.toNat := toUInt64x_of_nonneg hN hN64
  have e3 : u64add sp N.toNat = sp + N.toNat := u64add_eq (by omega)
  have e4 : u64add
      (s.m_memBlocks.getD (s.m_memBlocks.length - 1) default).offset
      s.m_samplesPerBlock =
      (s.m_memBlocks.getD (s.m_memBlocks.length - 1) default).offset +
      s.m_samplesPerBlock := u64add_eq (by omega)
  by_cases hguard :
      (s.m_memBlocks.getD (s.m_memBlocks.length - 1) default).offset +
        s.m_samplesPerBlock < sp + N.toNat
  · obtain ⟨s1, hsome, hfile1, hch1, hspb1, hbs1, hne1, hcontig1, hdlen1,
      hbound1, hcov1, hle1⟩ := allocateBlocks_sane s sp N hs hN hb hguard
    refine ⟨s1, ?_, ?_, Or.inr ⟨hle1, hguard⟩⟩
    · unfold SequentialBlockFile.preWriteState
      rw [if_pos, hsome]
      right
      rw [e1, e2, e3, e4]
      exact hguard
    · exact ⟨hfile1.trans hfile, hch1, hspb1, hbs1, hne1, hcontig1, hdlen1,
        hbound1, hcov1⟩
  · refine ⟨s, ?_, ?_, Or.inl rfl⟩
    · unfold SequentialBlockFile.preWriteState
      rw [if_neg]
      push_neg
      constructor
      · have h1 : (1 : Int) ≤ (s.m_memBlocks.length : Int) := by
          exact_mod_cast hlen
        omega
      · rw [e1, e2, e3, e4]
        omega
    · have hcov : sp + N.toNat ≤ (s.m_memBlocks.getD 0 default).offset +
          s.m_memBlocks.length * s.m_samplesPerBlock := by
        have h1 := hs.hcontig (s.m_memBlocks.length - 1) (by omega)
        have p2 : (s.m_memBlocks.length - 1) * s.m_samplesPerBlock +
            s.m_samplesPerBlock =
            s.m_memBlocks.length * s.m_samplesPerBlock := by
          have h4 : s.m_memBlocks.length - 1 + 1 = s.m_memBlocks.length := by
            omega
          calc (s.m_memBlocks.length - 1) * s.m_samplesPerBlock +
              s.m_samplesPerBlock
              = (s.m_memBlocks.length - 1 + 1) * s.m_samplesPerBlock := by ring
            _ = s.m_memBlocks.length * s.m_samplesPerBlock := by rw [h4]
        omega
      exact ⟨hfile, rfl, rfl, rfl, hs.hne, hs.hcontig, hs.hdlen,
        by have := hs.hbound; omega, hcov⟩

theorem getD_mem {α : Type} (l : List α) (n : Nat) (d : α) (h : n < l.length) :
    l.getD n d ∈ l := by
  rw [List.getD_eq_getElem?_getD, List.getElem?_eq_getElem h]
  exact List.getElem_mem _

theorem copyLoop_spec (C P ch : Nat) (hC : 1 ≤ C) (hP : 1 ≤ P) (hch : ch < C)
    (data : List Int) (N : Int) (hN : 0 ≤ N) (sp off0 L lbi : Nat)
    (hcov : sp + N.toNat ≤ off0 + L * P) :
    ∀ (fuel : Nat) (blocks : List FileBlock) (w startIdx dataIdx bIndex lbf : Nat),
      blocks.length = L →
      (∀ i < L, (blocks.getD i default).offset = off0 + i * P) →
      (∀ b ∈ blocks, b.data.length = C * P) →
      dataIdx = w →
      w ≤ N.toNat →
      ((w : Int) < N →
        (bIndex < L ∧ sp + w = off0 + bIndex * P + startIdx ∧ startIdx < P)) →
      bIndex ≤ L →
      L + 1 ≤ fuel + bIndex →
      ∃ blocks' bFin lbf',
        copyLoop C P ch data N lbi fuel blocks (w : Int) startIdx
          (startIdx * C) dataIdx bIndex lbf = some (blocks', bFin, lbf') ∧
        blocks'.length = L ∧
        (∀ i < L, (blocks'.getD i default).offset = off0 + i * P) ∧
        (∀ k < bIndex, blocks'.getD k default = blocks.getD k default) ∧
        (∀ j, w ≤ j → j < N.toNat →
          (blocks'.getD ((sp + j - off0) / P) default).data.getD
            (((sp + j - off0) % P) * C + ch) 0 = data.getD j 0) := by
  intro fuel
  induction fuel with
  | zero =>
    intro blocks w startIdx dataIdx bIndex lbf hlen hcontig hdlen hdi hwN h8 h10 h9
    omega
  | succ f ih =>
    intro blocks w startIdx dataIdx bIndex lbf hlen hcontig hdlen hdi hwN h8 h10 h9
    by_cases hw : (w : Int) < N
    · obtain ⟨hbL, hpos, hstartlt⟩ := h8 hw
      have hb' : bIndex < blocks.length := by omega
      have hstw1 : (1 : Int) ≤ jmin (N - (w : Int)) ((P : Int) - (startIdx : Int)) := by
        unfold jmin
        split <;> omega
      have hstwA : jmin (N - (w : Int)) ((P : Int) - (startIdx : Int)) = N - (w : Int) ∨
          jmin (N - (w : Int)) ((P : Int) - (startIdx : Int)) =
            (P : Int) - (startIdx : Int) := by
        unfold jmin
        split
        · right; rfl
        · left; rfl
      have hstwle1 : jmin (N - (w : Int)) ((P : Int) - (startIdx : Int)) ≤
          N - (w : Int) := by
        unfold jmin
        split <;> omega
      have hstwle2 : jmin (N - (w : Int)) ((P : Int) - (startIdx : Int)) ≤
          (P : Int) - (startIdx : Int) := by
        unfold jmin
        split <;> omega
      set stw := jmin (N - (w : Int)) ((P : Int) - (startIdx : Int)) with hstwdef
      set cnt := stw.toNat with hcntdef
      have hcnt_eq : (cnt : Int) = stw := Int.toNat_of_nonneg (by omega)
      have hcnt1 : 1 ≤ cnt := by omega
      have hcntN : w + cnt ≤ N.toNat := by omega
      have hcntP : startIdx + cnt ≤ P := by omega
      set b := blocks.getD bIndex default with hbdef
      set bl' := writeInterleaved b.data (startIdx * C + ch) C
        (readRun data dataIdx cnt) with hbl_def
      set spos := toUInt64x ((startIdx : Int) + stw) with hsposdef
      set lbf₂ := if bIndex = lbi ∧ lbf < spos then spos else lbf with hlbf2def
      have hstep : copyLoop C P ch data N lbi (f + 1) blocks (w : Int) startIdx
          (startIdx * C) dataIdx bIndex lbf =
          copyLoop C P ch data N lbi f
            (blocks.set bIndex { b with data := bl' }) ((w : Int) + stw) 0 0
            (dataIdx + cnt) (bIndex + 1) lbf₂ := by
        rw [copyLoop, if_pos hw, if_pos hb']
      have hcast : (w : Int) + stw = ((w + cnt : Nat) : Int) := by
        push_cast
        omega
      rw [hcast] at hstep
      -- invariants for the next iteration
      have hlen₂ : (blocks.set bIndex { b with data := bl' }).length = L := by
        rw [List.length_set]
        exact hlen
      have hcontig₂ : ∀ i < L,
          (((blocks.set bIndex { b with data := bl' }).getD i default)).offset =
            off0 + i * P := by
        intro i hi
        by_cases hib : bIndex = i
        · subst hib
          rw [getD_set_self _ _ _ _ hb']
          exact hcontig bIndex (by omega)
        · rw [getD_set_ne _ _ _ _ _ hib]
          exact hcontig i hi
      have hdlen₂ : ∀ bb ∈ blocks.set bIndex { b with data := bl' },
          bb.data.length = C * P := by
        intro bb hbb
        rcases List.mem_or_eq_of_mem_set hbb with h | h
        · exact hdlen bb h
        · rw [h]
          show bl'.length = C * P
          rw [hbl_def, writeInterleaved_length]
          exact hdlen b (getD_mem _ _ _ hb')
      have h8₂ : ((w + cnt : Nat) : Int) < N →
          (bIndex + 1 < L ∧ sp + (w + cnt) = off0 + (bIndex + 1) * P + 0 ∧
            0 < P) := by
        intro hw₂
        have hfull : cnt = P - startIdx := by
          rcases hstwA with hA | hA
          · exfalso
            rw [hA] at hcnt_eq
            omega
          · rw [hA] at hcnt_eq
            omega
        have hmul : (bIndex + 1) * P = bIndex * P + P := by ring
        have hpos₂ : sp + (w + cnt) = off0 + (bIndex + 1) * P + 0 := by omega
        refine ⟨?_, hpos₂, by omega⟩
        by_contra hcon
        have h9' : L * P ≤ (bIndex + 1) * P := Nat.mul_le_mul_right _ (by omega)
        omega
      obtain ⟨blocks'', bf, lbf', hcl, hlen'', hcontig'', hframe'', hvals''⟩ :=
        ih (blocks.set bIndex { b with data := bl' }) (w + cnt) 0
          (dataIdx + cnt) (bIndex + 1) lbf₂ hlen₂ hcontig₂ hdlen₂ (by omega)
          hcntN h8₂ (by
            by_cases hw₂ : ((w + cnt : Nat) : Int) < N
            · exact le_of_lt (h8₂ hw₂).1
            · omega) (by omega)
      rw [show (0 : Nat) * C = 0 from by ring] at hcl
      refine ⟨blocks'', bf, lbf', ?_, hlen'', hcontig'', ?_, ?_⟩
      · rw [hstep]
        exact hcl
      · intro k hk
        rw [hframe'' k (by omega), getD_set_ne _ _ _ _ _ (by omega)]
      · intro j hjw hjN
        by_cases hjcnt : j < w + cnt
        · have hsj : sp + j - off0 = startIdx + (j - w) + bIndex * P := by omega
          have hrlt : startIdx + (j - w) < P := by omega
          have hdiv : (sp + j - off0) / P = bIndex := by
            rw [hsj, Nat.add_mul_div_right _ _ (by omega : 0 < P),
              Nat.div_eq_of_lt hrlt]
            omega
          have hmod : (sp + j - off0) % P = startIdx + (j - w) := by
            rw [hsj, Nat.add_mul_mod_self_right, Nat.mod_eq_of_lt hrlt]
          rw [hdiv, hmod, hframe'' bIndex (by omega),
            getD_set_self _ _ _ _ hb']
          show bl'.getD ((startIdx + (j - w)) * C + ch) 0 = data.getD j 0
          have hposeq : (startIdx + (j - w)) * C + ch =
              (startIdx * C + ch) + (j - w) * C := by ring
          have hbdl : b.data.length = C * P := hdlen b (getD_mem _ _ _ hb')
          have hinb : (startIdx * C + ch) + (j - w) * C < b.data.length := by
            rw [hbdl]
            have h11 : (startIdx + (j - w) + 1) * C ≤ P * C :=
              Nat.mul_le_mul_right _ (by omega)
            have h12 : (startIdx + (j - w) + 1) * C =
                startIdx * C + (j - w) * C + C := by ring
            have h13 : P * C = C * P := by ring
            omega
          rw [hbl_def, hposeq,
            writeInterleaved_getD_hit C hC (readRun data dataIdx cnt)
              b.data (startIdx * C + ch) (j - w) 0
              (by rw [readRun_length]; omega) hinb,
            readRun_getD data dataIdx cnt (j - w) (by omega)]
          congr 1
          omega
        · exact hvals'' j (by omega) hjN
    · refine ⟨blocks, bIndex, lbf, ?_, hlen, hcontig, fun k _ => rfl, ?_⟩
      · rw [copyLoop, if_neg hw]
      · intro j hjw hjN
        omega

theorem writeChannel_run (s : SequentialBlockFile) (sp ch : Nat)
    (data : List Int) (N : Int) (hs : Sane s) (hfile : s.m_file = true)
    (hch : ch < s.m_nChannels) (hN : 0 ≤ N) (hb : sp + N.toNat < 2 ^ 30) :
    ∃ s1, s.preWriteState sp N = some s1 ∧ s1.m_memBlocks ≠ [] ∧
      (s1 = s ∨ ((s1.m_memBlocks.getD 0 default).offset ≤
        (s.m_memBlocks.getD (s.m_memBlocks.length - 1) default).offset ∧
        (s.m_memBlocks.getD (s.m_memBlocks.length - 1) default).offset +
          s.m_samplesPerBlock < sp + N.toNat)) ∧
      ((∀ b ∈ s1.m_memBlocks, sp < b.offset) →
        s.writeChannel sp ch data N = some (false, s1)) ∧
      (¬(∀ b ∈ s1.m_memBlocks, sp < b.offset) →
        ∃ s', s.writeChannel sp ch data N = some (true, s') ∧
          s'.m_memBlocks.length = s1.m_memBlocks.length ∧
          (∀ j < N.toNat, ∃ k < s'.m_memBlocks.length,
            (s'.m_memBlocks.getD k default).offset ≤ sp + j ∧
            sp + j < (s'.m_memBlocks.getD k default).offset +
              s.m_samplesPerBlock ∧
            (s'.m_memBlocks.getD k default).data.getD
              ((sp + j - (s'.m_memBlocks.getD k default).offset) *
                s.m_nChannels + ch) 0 = data.getD j 0) ∧
          (N = 0 → s' = { s1 with
            m_currentBlock := juceArraySet s1.m_currentBlock ch
              (scanBack s1.m_memBlocks sp - 1) })) := by
  obtain ⟨s1, hprep, hready, hdisj⟩ := preWriteState_spec s sp N hs hfile hN hb
  obtain ⟨hfile1, hch1, hspb1, hbs1, hne1, hcontig1, hdlen1, hbound1, hcov1⟩ :=
    hready
  have hlen1 : 0 < s1.m_memBlocks.length := List.length_pos.mpr hne1
  refine ⟨s1, hprep, hne1, hdisj, ?_, ?_⟩
  · intro hall
    have hscan : scanBack s1.m_memBlocks sp = -1 := by
      apply scanGo_none
      intro k hk
      exact hall _ (getD_mem _ _ _ hk)
    simp only [SequentialBlockFile.writeChannel, hfile, hprep,
      Option.some_bind, hscan]
    norm_num
  · intro hnall
    have hsp0 : (s1.m_memBlocks.getD 0 default).offset ≤ sp := by
      by_contra hgt
      push_neg at hgt
      apply hnall
      intro b hbmem
      obtain ⟨k, hk, hbk⟩ := List.getElem_of_mem hbmem
      have hbk' : s1.m_memBlocks.getD k default = b := by
        rw [List.getD_eq_getElem?_getD, List.getElem?_eq_getElem hk, hbk]
        rfl
      have h1 := hcontig1 k hk
      rw [hbk'] at h1
      omega
    have hP1 : 1 ≤ s1.m_samplesPerBlock := by rw [hspb1]; exact hs.hP
    have hC1 : 1 ≤ s1.m_nChannels := by rw [hch1]; exact hs.hC
    have hch1' : ch < s1.m_nChannels := by rw [hch1]; exact hch
    have hcontig1' : ∀ i < s1.m_memBlocks.length,
        (s1.m_memBlocks.getD i default).offset =
          (s1.m_memBlocks.getD 0 default).offset + i * s1.m_samplesPerBlock := by
      rw [hspb1]
      exact hcontig1
    have hdlen1' : ∀ b ∈ s1.m_memBlocks,
        b.data.length = s1.m_nChannels * s1.m_samplesPerBlock := by
      intro b hbmem
      rw [hch1, hspb1, ← hs.hbs]
      exact hdlen1 b hbmem
    have hcov1' : sp + N.toNat ≤ (s1.m_memBlocks.getD 0 default).offset +
        s1.m_memBlocks.length * s1.m_samplesPerBlock := by
      rw [hspb1]
      exact hcov1
    have hscan' : scanBack s1.m_memBlocks sp =
        ((min ((sp - (s1.m_memBlocks.getD 0 default).offset) /
          s1.m_samplesPerBlock) (s1.m_memBlocks.length - 1) : Nat) : Int) :=
      scanBack_contig s1.m_memBlocks sp _ _ hP1 hcontig1' hlen1 hsp0
    set k₀ := min ((sp - (s1.m_memBlocks.getD 0 default).offset) /
      s1.m_samplesPerBlock) (s1.m_memBlocks.length - 1) with hk₀def
    have hk₀lt : k₀ < s1.m_memBlocks.length := by omega
    have hoffk : (s1.m_memBlocks.getD k₀ default).offset =
        (s1.m_memBlocks.getD 0 default).offset + k₀ * s1.m_samplesPerBlock :=
      hcontig1' k₀ hk₀lt
    have hoffk_le : (s1.m_memBlocks.getD 0 default).offset +
        k₀ * s1.m_samplesPerBlock ≤ sp := by
      have h1 : k₀ ≤ (sp - (s1.m_memBlocks.getD 0 default).offset) /
          s1.m_samplesPerBlock := min_le_left _ _
      have h2 : k₀ * s1.m_samplesPerBlock ≤
          ((sp - (s1.m_memBlocks.getD 0 default).offset) /
            s1.m_samplesPerBlock) * s1.m_samplesPerBlock :=
        Nat.mul_le_mul_right _ h1
      have h3 := Nat.div_mul_le_self
        (sp - (s1.m_memBlocks.getD 0 default).offset) s1.m_samplesPerBlock
      omega
    have hbound31 : (s1.m_memBlocks.getD 0 default).offset +
        s1.m_memBlocks.length * s1.m_samplesPerBlock < 2 ^ 31 := by
      rw [hspb1]
      exact hbound1
    have hstartIdx : u64sub (mod64 sp)
        (s1.m_memBlocks.getD k₀ default).offset =
        sp - ((s1.m_memBlocks.getD 0 default).offset +
          k₀ * s1.m_samplesPerBlock) := by
      rw [mod64_eq_of_lt (by omega : sp < 2 ^ 64), hoffk]
      exact u64sub_eq_of_le hoffk_le (by omega)
    have h8 : ((0 : Nat) : Int) < N →
        (k₀ < s1.m_memBlocks.length ∧
          sp + 0 = (s1.m_memBlocks.getD 0 default).offset +
            k₀ * s1.m_samplesPerBlock +
            (sp - ((s1.m_memBlocks.getD 0 default).offset +
              k₀ * s1.m_samplesPerBlock)) ∧
          sp - ((s1.m_memBlocks.getD 0 default).offset +
            k₀ * s1.m_samplesPerBlock) < s1.m_samplesPerBlock) := by
      intro hNpos
      refine ⟨hk₀lt, by omega, ?_⟩
      have hNN : 1 ≤ N.toNat := by omega
      have hdivlt : (sp - (s1.m_memBlocks.getD 0 default).offset) /
          s1.m_samplesPerBlock ≤ s1.m_memBlocks.length - 1 := by
        have h1 : sp - (s1.m_memBlocks.getD 0 default).offset <
            s1.m_memBlocks.length * s1.m_samplesPerBlock := by omega
        have h2 : (sp - (s1.m_memBlocks.getD 0 default).offset) /
            s1.m_samplesPerBlock < s1.m_memBlocks.length :=
          (Nat.div_lt_iff_lt_mul
            (show 0 < s1.m_samplesPerBlock by omega)).mpr (by
              have h3 : s1.m_memBlocks.length * s1.m_samplesPerBlock =
                  s1.m_samplesPerBlock * s1.m_memBlocks.length := by ring
              omega)
        omega
      have hk₀eq : k₀ = (sp - (s1.m_memBlocks.getD 0 default).offset) /
          s1.m_samplesPerBlock := min_eq_left hdivlt
      have hdm := Nat.div_add_mod (sp - (s1.m_memBlocks.getD 0 default).offset)
        s1.m_samplesPerBlock
      have hml := Nat.mod_lt (sp - (s1.m_memBlocks.getD 0 default).offset)
        (show 0 < s1.m_samplesPerBlock by omega)
      have hmul : s1.m_samplesPerBlock *
          ((sp - (s1.m_memBlocks.getD 0 default).offset) /
            s1.m_samplesPerBlock) =
          ((sp - (s1.m_memBlocks.getD 0 default).offset) /
            s1.m_samplesPerBlock) * s1.m_samplesPerBlock := by ring
      rw [hk₀eq]
      omega
    have hw0 : (0 : Nat) ≤ N.toNat := by omega
    have h10x : k₀ ≤ s1.m_memBlocks.length := by omega
    have h9x : s1.m_memBlocks.length + 1 ≤
        (s1.m_memBlocks.length + 2) + k₀ :=
      Nat.le_trans (Nat.le_succ _) (Nat.le_add_right _ _)
    obtain ⟨blocks', bf, lbf', hcl, hlen', hcontig', hframe', hvals'⟩ :=
      copyLoop_spec s1.m_nChannels s1.m_samplesPerBlock ch hC1 hP1 hch1'
        data N hN sp ((s1.m_memBlocks.getD 0 default).offset)
        s1.m_memBlocks.length (s1.m_memBlocks.length - 1) hcov1'
        (s1.m_memBlocks.length + 2) s1.m_memBlocks 0
        (sp - ((s1.m_memBlocks.getD 0 default).offset +
          k₀ * s1.m_samplesPerBlock)) 0 k₀ s1.m_lastBlockFill
        rfl hcontig1' hdlen1' rfl hw0 h8 h10x h9x
    have hwc : s.writeChannel sp ch data N = some (true, { s1 with
        m_memBlocks := blocks'
        m_lastBlockFill := lbf'
        m_currentBlock := juceArraySet s1.m_currentBlock ch
          ((bf : Int) - 1) }) := by
      simp only [SequentialBlockFile.writeChannel, hfile, hprep,
        Option.some_bind, hscan']
      rw [Nat.cast_zero] at hcl
      rw [if_neg (not_lt.mpr (Int.natCast_nonneg _)), Int.toNat_natCast,
        hstartIdx, hcl]
      rfl
    refine ⟨_, hwc, ?_, ?_, ?_⟩
    · exact hlen'
    · intro j hj
      have hoff0sp : (s1.m_memBlocks.getD 0 default).offset ≤ sp + j := by
        omega
      have h1 : sp + j - (s1.m_memBlocks.getD 0 default).offset <
          s1.m_memBlocks.length * s1.m_samplesPerBlock := by omega
      have hqlt : (sp + j - (s1.m_memBlocks.getD 0 default).offset) /
          s1.m_samplesPerBlock < s1.m_memBlocks.length :=
        (Nat.div_lt_iff_lt_mul
          (show 0 < s1.m_samplesPerBlock by omega)).mpr (by
            have h3 : s1.m_memBlocks.length * s1.m_samplesPerBlock =
                s1.m_samplesPerBlock * s1.m_memBlocks.length := by ring
            omega)
      have hdm := Nat.div_add_mod
        (sp + j - (s1.m_memBlocks.getD 0 default).offset) s1.m_samplesPerBlock
      have hml := Nat.mod_lt
        (sp + j - (s1.m_memBlocks.getD 0 default).offset)
        (show 0 < s1.m_samplesPerBlock by omega)
      have hmulc : s1.m_samplesPerBlock *
          ((sp + j - (s1.m_memBlocks.getD 0 default).offset) /
            s1.m_samplesPerBlock) =
          ((sp + j - (s1.m_memBlocks.getD 0 default).offset) /
            s1.m_samplesPerBlock) * s1.m_samplesPerBlock := by ring
      have hoffq := hcontig'
        ((sp + j - (s1.m_memBlocks.getD 0 default).offset) /
          s1.m_samplesPerBlock) hqlt
      have hval := hvals' j (by omega) hj
      refine ⟨(sp + j - (s1.m_memBlocks.getD 0 default).offset) /
        s1.m_samplesPerBlock, ?_, ?_, ?_, ?_⟩
      · show (sp + j - (s1.m_memBlocks.getD 0 default).offset) /
          s1.m_samplesPerBlock < blocks'.length
        omega
      · show (blocks'.getD ((sp + j -
          (s1.m_memBlocks.getD 0 default).offset) /
            s1.m_samplesPerBlock) default).offset ≤ sp + j
        rw [hoffq]
        omega
      · show sp + j < (blocks'.getD ((sp + j -
          (s1.m_memBlocks.getD 0 default).offset) /
            s1.m_samplesPerBlock) default).offset + s.m_samplesPerBlock
        rw [hoffq, ← hspb1]
        omega
      · show (blocks'.getD ((sp + j -
          (s1.m_memBlocks.getD 0 default).offset) /
            s1.m_samplesPerBlock) default).data.getD
            ((sp + j - (blocks'.getD ((sp + j -
              (s1.m_memBlocks.getD 0 default).offset) /
                s1.m_samplesPerBlock) default).offset) *
              s.m_nChannels + ch) 0 = data.getD j 0
        rw [hoffq, ← hch1]
        have hsub : sp + j - ((s1.m_memBlocks.getD 0 default).offset +
            (sp + j - (s1.m_memBlocks.getD 0 default).offset) /
              s1.m_samplesPerBlock * s1.m_samplesPerBlock) =
            (sp + j - (s1.m_memBlocks.getD 0 default).offset) %
              s1.m_samplesPerBlock := by omega
        rw [hsub]
        exact hval
    · intro hN0
      subst hN0
      have hend : copyLoop s1.m_nChannels s1.m_samplesPerBlock ch data 0
          (s1.m_memBlocks.length - 1) (s1.m_memBlocks.length + 2)
          s1.m_memBlocks ((0 : Nat) : Int)
          (sp - ((s1.m_memBlocks.getD 0 default).offset +
            k₀ * s1.m_samplesPerBlock))
          ((sp - ((s1.m_memBlocks.getD 0 default).offset +
            k₀ * s1.m_samplesPerBlock)) * s1.m_nChannels) 0 k₀
          s1.m_lastBlockFill = some (s1.m_memBlocks, k₀, s1.m_lastBlockFill) := by
        rw [show s1.m_memBlocks.length + 2 = (s1.m_memBlocks.length + 1) + 1
          from rfl]
        rw [copyLoop, if_neg (by omega)]
      have hscan2 : scanBack s1.m_memBlocks sp = ((k₀ : Nat) : Int) := by
        rw [hk₀def]
        exact scanBack_contig s1.m_memBlocks sp _ _ hP1 hcontig1' hlen1 hsp0
      have heq := hcl.symm.trans hend
      simp only [Option.some.injEq, Prod.mk.injEq] at heq
      obtain ⟨hb1, hb2, hb3⟩ := heq
      subst hb1
      subst hb2
      subst hb3
      rw [hscan2]

/-
The three writeChannel claims derived from the master run lemma.
-/

theorem sane_exA1 : Sane exA1 :=
  ⟨by decide, by decide, by decide, by decide, by unfold Contig; decide,
   by unfold DataSized; decide, by decide, by decide⟩

theorem sane_exA2 : Sane exA2 :=
  ⟨by decide, by decide, by decide, by decide, by unfold Contig; decide,
   by unfold DataSized; decide, by decide, by decide⟩

/-- C3.  Interleave correctness: whenever writeChannel succeeds from a
sane open state, every sample j of the run lands in a resident block of
the result that owns absolute position startPos+j, at block-relative
position (startPos+j - block.offset)*nChannels + channel, and the stored
value there is exactly data[j]; the copy loop splits the run at block
boundaries, which the per-block ownership bounds record. -/
theorem writeChannel_interleave_correct (s : SequentialBlockFile)
    (sp ch : Nat) (data : List Int) (N : Int) (s' : SequentialBlockFile)
    (hs : Sane s) (hfile : s.m_file = true) (hch : ch < s.m_nChannels)
    (hN : 0 ≤ N) (hb : sp + N.toNat < 2 ^ 30)
    (hsucc : s.writeChannel sp ch data N = some (true, s')) :
    ∀ j < N.toNat, ∃ k < s'.m_memBlocks.length,
      (s'.m_memBlocks.getD k default).offset ≤ sp + j ∧
      sp + j < (s'.m_memBlocks.getD k default).offset + s.m_samplesPerBlock ∧
      (s'.m_memBlocks.getD k default).data.getD
        ((sp + j - (s'.m_memBlocks.getD k default).offset) *
          s.m_nChannels + ch) 0 = data.getD j 0 := by
  obtain ⟨s1, hprep, hne1, hdisj, hfail, hgo⟩ :=
    writeChannel_run s sp ch data N hs hfile hch hN hb
  by_cases hall : ∀ b ∈ s1.m_memBlocks, sp < b.offset
  · exact absurd ((hfail hall).symm.trans hsucc) (by simp)
  · obtain ⟨s'', hwc, hlen, hvals, hz⟩ := hgo hall
    have heq := hwc.symm.trans hsucc
    simp only [Option.some.injEq, Prod.mk.injEq, true_and] at heq
    subst heq
    exact hvals

theorem writeChannel_interleave_correct_witness :
    ∃ k < exA2.m_memBlocks.length,
      (exA2.m_memBlocks.getD k default).offset ≤ 0 + 2 ∧
      0 + 2 < (exA2.m_memBlocks.getD k default).offset +
        exA1.m_samplesPerBlock ∧
      (exA2.m_memBlocks.getD k default).data.getD
        ((0 + 2 - (exA2.m_memBlocks.getD k default).offset) *
          exA1.m_nChannels + 1) 0 = [9, 8, 7, 6].getD 2 0 :=
  writeChannel_interleave_correct exA1 0 1 [9, 8, 7, 6] 4 exA2 sane_exA1
    (by decide) (by decide) (by decide) (by decide) (by decide) 2 (by decide)

/-- C8.  Failure characterization: from a sane state, writeChannel
reports false exactly when the stream is not open (fail fast: it returns
the state unchanged, attempting nothing) or when, after the capacity
step, every resident block starts above startPos so the backward scan
finds no block with offset at most startPos; in every other case it
reports true.  The backing flush is modelled as reliable following the
spec, so no flush failure is surfaced through the boolean. -/
theorem writeChannel_failure_characterization (s : SequentialBlockFile)
    (sp ch : Nat) (data : List Int) (N : Int) (hs : Sane s)
    (hch : ch < s.m_nChannels) (hN : 0 ≤ N) (hb : sp + N.toNat < 2 ^ 30) :
    (s.m_file = false → s.writeChannel sp ch data N = some (false, s)) ∧
    (s.m_file = true → ∃ r s1 s', s.preWriteState sp N = some s1 ∧
      s.writeChannel sp ch data N = some (r, s') ∧
      (r = false ↔ ∀ b ∈ s1.m_memBlocks, sp < b.offset)) := by
  constructor
  · intro hclosed
    simp [SequentialBlockFile.writeChannel, hclosed]
  · intro hfile
    obtain ⟨s1, hprep, hne1, hdisj, hfail, hgo⟩ :=
      writeChannel_run s sp ch data N hs hfile hch hN hb
    by_cases hall : ∀ b ∈ s1.m_memBlocks, sp < b.offset
    · exact ⟨false, s1, s1, hprep, hfail hall, iff_of_true rfl hall⟩
    · obtain ⟨s', hwc, -, -, -⟩ := hgo hall
      exact ⟨true, s1, s', hprep, hwc, iff_of_false (by decide) hall⟩

theorem writeChannel_failure_characterization_witness :
    (exB3.m_file = false →
      exB3.writeChannel 6 0 [7, 7] 2 = some (false, exB3)) ∧
    (exB3.m_file = true → ∃ r s1 s', exB3.preWriteState 6 2 = some s1 ∧
      exB3.writeChannel 6 0 [7, 7] 2 = some (r, s') ∧
      (r = false ↔ ∀ b ∈ s1.m_memBlocks, 6 < b.offset)) :=
  writeChannel_failure_characterization exB3 6 0 [7, 7] 2 sane_exB3
    (by decide) (by decide) (by decide)

/-- C9.  Zero-length write cursor regression: with the file open and
startPos at or above the first resident block's offset, a write of zero
samples returns true, leaves the resident data as the capacity step left
it (copying nothing), and sets the channel's cursor to the located block
index minus one - the copy loop body never runs, so the cursor is
assigned from the unadvanced loop index, possibly regressing it to -1. -/
theorem writeChannel_zero_length_cursor_regression (s : SequentialBlockFile)
    (sp ch : Nat) (data : List Int) (hs : Sane s) (hfile : s.m_file = true)
    (hch : ch < s.m_nChannels) (hb : sp < 2 ^ 30)
    (hsp : (s.m_memBlocks.getD 0 default).offset ≤ sp) :
    ∃ s1, s.preWriteState sp 0 = some s1 ∧
      s.writeChannel sp ch data 0 = some (true, { s1 with
        m_currentBlock := juceArraySet s1.m_currentBlock ch
          (scanBack s1.m_memBlocks sp - 1) }) := by
  obtain ⟨s1, hprep, hne1, hdisj, hfail, hgo⟩ :=
    writeChannel_run s sp ch data 0 hs hfile hch (by omega) (by omega)
  have hnall : ¬∀ b ∈ s1.m_memBlocks, sp < b.offset := by
    intro hall
    have hlen1 : 0 < s1.m_memBlocks.length := List.length_pos.mpr hne1
    have hlt := hall _ (getD_mem _ 0 default hlen1)
    rcases hdisj with he | ⟨h1, h2⟩
    · rw [he] at hlt
      omega
    · omega
  obtain ⟨s', hwc, hlen, hvals, hz⟩ := hgo hnall
  refine ⟨s1, hprep, ?_⟩
  rw [← hz rfl]
  exact hwc

theorem writeChannel_zero_length_cursor_regression_witness :
    ∃ s1, exA2.preWriteState 0 0 = some s1 ∧
      exA2.writeChannel 0 0 [] 0 = some (true, { s1 with
        m_currentBlock := juceArraySet s1.m_currentBlock 0
          (scanBack s1.m_memBlocks 0 - 1) }) :=
  writeChannel_zero_length_cursor_regression exA2 0 0 [] sane_exA2
    (by decide) (by decide) (by decide) (by decide)
